import Mathlib

/-!
Verification of the windfish mempool.dat codec and editor.

Shallow embedding of the windfish repository (a Bitcoin Core `mempool.dat`
editor).  The file models:

* the byte-level primitive codec used by `rust-bitcoin`'s consensus
  encoding (little-endian fixed-width integers, Bitcoin CompactSize
  "VarInt" with the non-minimal-encoding rejection performed by
  `rust-bitcoin`, raw 32-byte txids, transactions with the BIP-144
  segwit marker/flag logic);
* `src/src/lib.rs`: `MempoolSerde::new` (decode, here `loadBytes` over a
  byte list instead of a file) and `MempoolSerde::to_bytes` (encode);
* `src/tui/src/main.rs`: the editing operations `App::delete_selected`
  and `App::insert_tx`.

Bytes are `Fin 256`; a byte stream is a `List (Fin 256)`.  Readers are
functions `Bytes → Option (α × Bytes)` returning the decoded value and
the unconsumed rest; `none` models a decode/IO error propagated through
Rust's `?`.  `unimplemented!` (a panic, not an error return) is a
separate constructor of `LoadResult`.

Rust's `HashMap<Txid, i64>` / `HashSet<Txid>` are modelled as
insertion-ordered association lists with the same insert semantics
(overwrite value in place on duplicate key / no-op on duplicate member).
The real `std` collections iterate in a hasher-dependent order, not in
insertion order; a byte-exact statement about the serializer that is
sensitive to that order is therefore made through `to_bytes_iter`, which
takes the iteration sequences of the two collections as parameters, and
quantifies over every permutation of the collections' contents.
-/

set_option maxHeartbeats 1000000

namespace Windfish

/-- A byte. -/
abbrev Byte := Fin 256


/-- A byte stream. -/
abbrev Bytes := List Byte


/-- Little-endian value of a byte list. -/
def bytesToNat : Bytes → Nat
  | [] => 0
  | b :: r => b.val + 256 * bytesToNat r


/-- Little-endian encoding of `v` on `w` bytes (truncates to `v mod 256^w`,
matching a Rust `as`-cast to the fixed width). -/
def natToBytes : Nat → Nat → Bytes
  | 0, _ => []
  | w + 1, v => ⟨v % 256, Nat.mod_lt _ (by omega)⟩ :: natToBytes w (v / 256)


/-! ## Reader combinators

A reader consumes a prefix of a byte list and returns the decoded value
with the rest, or `none` on failure (modelling a Rust `Err` propagated
with `?`). -/

/-- The reader type. -/
def P (α : Type) : Type := Bytes → Option (α × Bytes)


def ppure {α : Type} (a : α) : P α := fun bs => some (a, bs)


def pbind {α β : Type} (p : P α) (f : α → P β) : P β := fun bs =>
  match p bs with
  | none => none
  | some (a, rest) => f a rest


instance : Monad P where
  pure := ppure
  bind := pbind


/-- Failure (a decode error). -/
def pfail {α : Type} : P α := fun _ => none


/-- Read one byte. -/
def readByte : P Byte := fun bs =>
  match bs with
  | [] => none
  | b :: r => some (b, r)


/-- Read exactly `n` bytes. -/
def readBytesN (n : Nat) : P Bytes := fun bs =>
  if n ≤ bs.length then some (bs.take n, bs.drop n) else none


/-- Model of `rust-bitcoin` `ReadExt::read_u16` (little endian). -/
def readU16 : P Nat := do
  let b ← readBytesN 2
  pure (bytesToNat b)


/-- Model of `rust-bitcoin` `ReadExt::read_u32` (little endian). -/
def readU32 : P Nat := do
  let b ← readBytesN 4
  pure (bytesToNat b)


/-- Model of `rust-bitcoin` `ReadExt::read_u64` (little endian). -/
def readU64 : P Nat := do
  let b ← readBytesN 8
  pure (bytesToNat b)


/-- Two's-complement reinterpretation of a 64-bit unsigned value. -/
def toI64 (v : Nat) : Int :=
  if v < 2 ^ 63 then (v : Int) else (v : Int) - 2 ^ 64


/-- Model of `rust-bitcoin` `ReadExt::read_i64` (little endian, two's complement). -/
def readI64 : P Int := do
  let v ← readU64
  pure (toI64 v)


/-- Model of `emit_u64`: 8 bytes little endian. -/
def emitU64 (v : Nat) : Bytes := natToBytes 8 v


/-- Model of `emit_i64`: two's complement on 8 bytes little endian. -/
def emitI64 (x : Int) : Bytes := natToBytes 8 (x % (2 ^ 64 : Nat)).toNat


/-- Run `p` exactly `n` times, collecting the results in order
(the `for _ in 0..n` loops of the source). -/
def pcount {α : Type} (p : P α) : Nat → P (List α)
  | 0 => ppure []
  | n + 1 => do
    let a ← p
    let as ← pcount p n
    pure (a :: as)


/-! ## Bitcoin consensus codec

Models of the `rust-bitcoin` consensus (de)serializers used by
`src/src/lib.rs`: `VarInt` (Bitcoin CompactSize, rejecting non-minimal
encodings, as `rust-bitcoin` does), `Txid` (32 raw bytes), and
`Transaction` with the BIP-144 segwit marker/flag branching of
`Transaction::consensus_decode` / `consensus_encode`.  The 4 MB
finite-reader allocation caps of `rust-bitcoin` are not modelled. -/

/-- Model of `VarInt::consensus_decode` (Bitcoin CompactSize).  `rust-bitcoin`
rejects non-minimal encodings with `NonMinimalVarInt`, modelled as
failure. -/
def readVarInt : P Nat := do
  let b ← readByte
  if b.val ≤ 0xfc then
    pure b.val
  else if b.val = 0xfd then do
    let x ← readU16
    if x < 0xfd then pfail else pure x
  else if b.val = 0xfe then do
    let x ← readU32
    if x < 0x10000 then pfail else pure x
  else do
    let x ← readU64
    if x < 0x100000000 then pfail else pure x


/-- Model of `VarInt::consensus_encode`. -/
def encodeVarInt (v : Nat) : Bytes :=
  if v ≤ 0xfc then [⟨v % 256, Nat.mod_lt _ (by omega)⟩]
  else if v ≤ 0xffff then ⟨0xfd, by omega⟩ :: natToBytes 2 v
  else if v ≤ 0xffffffff then ⟨0xfe, by omega⟩ :: natToBytes 4 v
  else ⟨0xff, by omega⟩ :: natToBytes 8 v


/-- A transaction id: 32 raw bytes, read and written verbatim. -/
abbrev Txid := Bytes


/-- Model of `Txid::consensus_decode`: 32 raw bytes. -/
def readTxid : P Txid := readBytesN 32


/-- A variable-length byte blob prefixed by its CompactSize length
(`ScriptBuf` / `Vec<u8>` consensus decoding). -/
def readBlob : P Bytes := do
  let n ← readVarInt
  readBytesN n


/-- Length-prefixed blob encoding. -/
def encodeBlob (s : Bytes) : Bytes := encodeVarInt s.length ++ s


/-- Model of `TxIn`: previous output (txid, vout), signature script, sequence,
witness stack (filled in separately by the segwit transaction path). -/
structure TxIn where
  prevTxid : Txid
  prevVout : Nat
  scriptSig : Bytes
  sequence : Nat
  witness : List Bytes
deriving DecidableEq, Repr


/-- Model of `TxOut`: amount and script pubkey. -/
structure TxOut where
  value : Nat
  scriptPubkey : Bytes
deriving DecidableEq, Repr


/-- Model of `Transaction`: version and lock time are kept as their raw unsigned
32-bit wire values. -/
structure Transaction where
  version : Nat
  lockTime : Nat
  input : List TxIn
  output : List TxOut
deriving DecidableEq, Repr


/-- Model of `TxIn::consensus_decode` (witness defaults to empty, exactly as
`rust-bitcoin` sets `Witness::default()` here). -/
def readTxIn : P TxIn := do
  let h ← readTxid
  let vout ← readU32
  let scr ← readBlob
  let seq ← readU32
  pure ⟨h, vout, scr, seq, []⟩


/-- Model of `TxOut::consensus_decode`. -/
def readTxOut : P TxOut := do
  let v ← readU64
  let scr ← readBlob
  pure ⟨v, scr⟩


/-- Model of `Vec<T>::consensus_decode`: CompactSize count then that many
elements. -/
def readVec {α : Type} (p : P α) : P (List α) := do
  let n ← readVarInt
  pcount p n


/-- Model of `Witness::consensus_decode`: CompactSize element count, then each
element as a length-prefixed blob. -/
def readWitness : P (List Bytes) := do
  let n ← readVarInt
  pcount readBlob n


/-- Encoding of one witness stack. -/
def encodeWitness (w : List Bytes) : Bytes :=
  encodeVarInt w.length ++ List.flatten (w.map encodeBlob)


/-- Model of `TxIn::consensus_encode` (witness is not written here; the segwit
transaction encoder writes all witness stacks after the outputs). -/
def encodeTxIn (i : TxIn) : Bytes :=
  i.prevTxid ++ natToBytes 4 i.prevVout ++ encodeBlob i.scriptSig ++
    natToBytes 4 i.sequence


/-- Model of `TxOut::consensus_encode`. -/
def encodeTxOut (o : TxOut) : Bytes :=
  natToBytes 8 o.value ++ encodeBlob o.scriptPubkey


/-- Model of `Vec<T>::consensus_encode`. -/
def encodeVec {α : Type} (e : α → Bytes) (l : List α) : Bytes :=
  encodeVarInt l.length ++ List.flatten (l.map e)


/-- Overwrite the witnesses of already-decoded inputs, in order (the
`for txin in input.iter_mut()` loop of `Transaction::consensus_decode`). -/
def setWitnesses : List TxIn → List (List Bytes) → List TxIn
  | [], _ => []
  | i :: is, [] => i :: is
  | i :: is, w :: ws => { i with witness := w } :: setWitnesses is ws


/-- Model of `Transaction::uses_segwit_serialization`: true when some input
carries a witness, or when there are no inputs at all (BIP-141
serialization avoids the ambiguity of a zero-input legacy encoding). -/
def usesSegwit (t : Transaction) : Bool :=
  t.input.any (fun i => !i.witness.isEmpty) || t.input.isEmpty


/-- Model of `Transaction::consensus_decode`: version, then the input vector; an
empty input vector switches to the segwit layout (marker already
consumed as the empty count, then flag `0x01`, real inputs, outputs,
one witness stack per input, with the all-empty-witness encoding
rejected); a non-empty input vector continues with the legacy layout. -/
def readTransaction : P Transaction := do
  let version ← readU32
  let input ← readVec readTxIn
  if input.isEmpty then do
    let flag ← readByte
    if flag.val = 1 then do
      let input ← readVec readTxIn
      let output ← readVec readTxOut
      let ws ← pcount readWitness input.length
      if ¬ (setWitnesses input ws).isEmpty ∧
          (setWitnesses input ws).all (fun i => i.witness.isEmpty) then
        pfail
      else do
        let lt ← readU32
        pure ⟨version, lt, setWitnesses input ws, output⟩
    else pfail
  else do
    let output ← readVec readTxOut
    let lt ← readU32
    pure ⟨version, lt, input, output⟩


/-- Model of `Transaction::consensus_encode`. -/
def encodeTransaction (t : Transaction) : Bytes :=
  natToBytes 4 t.version ++
    (if usesSegwit t then [⟨0, by omega⟩, ⟨1, by omega⟩] else []) ++
    encodeVec encodeTxIn t.input ++
    encodeVec encodeTxOut t.output ++
    (if usesSegwit t then List.flatten (t.input.map (fun i => encodeWitness i.witness))
     else []) ++
    natToBytes 4 t.lockTime


/-! ## `src/src/lib.rs`: `MempoolSerde` -/

/-- Constant `MEMPOOL_DUMP_VERSION_NO_XOR_KEY`. -/
def MEMPOOL_DUMP_VERSION_NO_XOR_KEY : Nat := 1


/-- Constant `MEMPOOL_DUMP_VERSION` (the XOR'd variant this crate does not decode). -/
def MEMPOOL_DUMP_VERSION : Nat := 2


/-- One mempool entry (`Txn`): transaction, admission time, fee delta. -/
structure Txn where
  tx : Transaction
  time : Int
  fee_delta : Int
deriving DecidableEq, Repr


/-- Model of `HashMap::insert`: overwrite the value in place on an existing key,
append on a new key.  The list order models the map's iteration order;
see the header note on hasher-dependent ordering of the real `std`
collections. -/
def insertMap (m : List (Txid × Int)) (k : Txid) (v : Int) : List (Txid × Int) :=
  if m.any (fun p => p.1 = k) then
    m.map (fun p => if p.1 = k then (k, v) else p)
  else m ++ [(k, v)]


/-- Model of `HashSet::insert`: no-op on an existing member, append otherwise. -/
def insertSet (s : List Txid) (k : Txid) : List Txid :=
  if k ∈ s then s else s ++ [k]


/-- The in-memory snapshot (`MempoolSerde`). -/
structure MempoolSerde where
  version : Nat
  txs : List Txn
  map_deltas : List (Txid × Int)
  unbroadcast_txids : List Txid
deriving DecidableEq, Repr


/-- One entry of the entry-sequence section: transaction, then time,
then fee delta (the body of the first loop of `MempoolSerde::new`). -/
def readTxn : P Txn := do
  let tx ← readTransaction
  let time ← readI64
  let fee_delta ← readI64
  pure ⟨tx, time, fee_delta⟩


/-- One delta-map pair: txid then 8-byte signed delta. -/
def readDeltaPair : P (Txid × Int) := do
  let txid ← readTxid
  let delta ← readI64
  pure (txid, delta)


/-- The delta-map loop of `MempoolSerde::new`, carrying the map being
built: decode a pair, `HashMap::insert` it, repeat. -/
def readDeltaLoop : Nat → List (Txid × Int) → P (List (Txid × Int))
  | 0, m => ppure m
  | n + 1, m => do
    let p ← readDeltaPair
    readDeltaLoop n (insertMap m p.1 p.2)


/-- The unbroadcast loop of `MempoolSerde::new`, carrying the set being
built. -/
def readUnbroadcastLoop : Nat → List Txid → P (List Txid)
  | 0, s => ppure s
  | n + 1, s => do
    let txid ← readTxid
    readUnbroadcastLoop n (insertSet s txid)


/-- The version-1 body of `MempoolSerde::new`, after the version tag:
entry count (u64) and entries, delta-map count (VarInt) and pairs,
unbroadcast count (VarInt) and txids. -/
def readV1Body : P (List Txn × List (Txid × Int) × List Txid) := do
  let n ← readU64
  let txs ← pcount readTxn n
  let d ← readVarInt
  let map_deltas ← readDeltaLoop d []
  let u ← readVarInt
  let unbroadcast ← readUnbroadcastLoop u []
  pure (txs, map_deltas, unbroadcast)


/-- Outcome of `MempoolSerde::new`: a decoded snapshot together with the
bytes left unread in the file, an error returned to the caller
(`Err(MempoolSerdeError)`), or a panic (`unimplemented!`). -/
inductive LoadResult
  | ok (m : MempoolSerde) (rest : Bytes)
  | err
  | panic
deriving DecidableEq, Repr


/-- Model of `MempoolSerde::new`, over the file's bytes: read the version tag,
decode the version-1 layout, and `unimplemented!` on any other version
tag.  The reader never checks that the file is exhausted. -/
def loadBytes (bs : Bytes) : LoadResult :=
  match readU64 bs with
  | none => .err
  | some (version, r1) =>
    if version = MEMPOOL_DUMP_VERSION_NO_XOR_KEY then
      match readV1Body r1 with
      | none => .err
      | some ((txs, map_deltas, unbroadcast), rest) =>
        .ok ⟨version, txs, map_deltas, unbroadcast⟩ rest
    else .panic


/-- The entry-record encoder used by `to_bytes`: transaction bytes, then
time, then fee delta. -/
def encodeTxn (t : Txn) : Bytes :=
  encodeTransaction t.tx ++ emitI64 t.time ++ emitI64 t.fee_delta


/-- One serialized delta-map pair. -/
def encodeDeltaPair (p : Txid × Int) : Bytes := p.1 ++ emitI64 p.2


/-- Model of `MempoolSerde::to_bytes` with the iteration sequences of the
two keyed collections made explicit: version, entry count and entries,
then delta-map count and pairs in the order `pairsIter`, then
unbroadcast count and txids in the order `ubsIter`.  The source iterates
`std` `HashMap`/`HashSet`, whose order is hasher-dependent: the one
guarantee is that each `for` loop visits exactly the collection's
contents, i.e. some permutation of them.  A theorem about the program's
output bytes that depends on this order therefore quantifies over all
permutations of the contents. -/
def to_bytes_iter (version : Nat) (txs : List Txn)
    (pairsIter : List (Txid × Int)) (ubsIter : List Txid) : Bytes :=
  emitU64 version ++
    emitU64 txs.length ++
    List.flatten (txs.map encodeTxn) ++
    encodeVarInt pairsIter.length ++
    List.flatten (pairsIter.map encodeDeltaPair) ++
    encodeVarInt ubsIter.length ++
    List.flatten ubsIter

/-- Model of `MempoolSerde::to_bytes`: `to_bytes_iter` at one fixed
admissible iteration order, the model's insertion order.  Statements
that are sensitive to the hasher-dependent order of the real collections
must use `to_bytes_iter` quantified over permutations instead. -/
def to_bytes (m : MempoolSerde) : Bytes :=
  to_bytes_iter m.version m.txs m.map_deltas m.unbroadcast_txids


/-! ## `src/tui/src/main.rs`: the editor operations

Only the state the two verified operations touch is modelled: the
snapshot and the list selection.  `insert_tx`'s call to
`chrono::Utc::now()` is a parameter `now`. -/

/-- The editor state (`App`): snapshot plus selected index. -/
structure App where
  mempool : MempoolSerde
  selected : Option Nat
deriving DecidableEq, Repr


/-- Model of `App::delete_selected`: remove the selected entry (`Vec::remove`)
when a valid index is selected, then clamp or clear the selection. -/
def delete_selected (a : App) : App :=
  match a.selected with
  | none => a
  | some i =>
    if i < a.mempool.txs.length then
      let txs := a.mempool.txs.eraseIdx i
      let sel :=
        if txs.isEmpty then none
        else if txs.length ≤ i then some (txs.length - 1)
        else some i
      ⟨{ a.mempool with txs := txs }, sel⟩
    else a


/-- Decode of one hex character (`hex` crate). -/
def hexDigit (c : Char) : Option Nat :=
  if '0' ≤ c ∧ c ≤ '9' then some (c.toNat - '0'.toNat)
  else if 'a' ≤ c ∧ c ≤ 'f' then some (c.toNat - 'a'.toNat + 10)
  else if 'A' ≤ c ∧ c ≤ 'F' then some (c.toNat - 'A'.toNat + 10)
  else none


/-- Model of `hex::decode` on a character list: pairs of hex digits, failing on a
non-hex character or an odd length. -/
def hexDecodeList : List Char → Option Bytes
  | [] => some []
  | [_] => none
  | c1 :: c2 :: rest => do
    let h ← hexDigit c1
    let l ← hexDigit c2
    let r ← hexDecodeList rest
    pure (⟨h % 16 * 16 + l % 16, by omega⟩ :: r)


/-- Model of `str::trim` (ASCII whitespace suffices for the verified properties). -/
def trimChars (l : List Char) : List Char :=
  (((l.dropWhile Char.isWhitespace).reverse).dropWhile Char.isWhitespace).reverse


/-- Model of `App::insert_tx`: hex-decode the trimmed input, consensus-decode a
transaction from the resulting bytes (trailing bytes after the
transaction are not rejected: the slice reader is simply left there),
and push a new entry with the current timestamp and a zero fee delta.
Either decode failure returns an error message and, having returned
before any mutation, leaves the state unchanged. -/
def insert_tx (a : App) (hex : List Char) (now : Int) : App × Except String Unit :=
  match hexDecodeList (trimChars hex) with
  | none => (a, .error ("Invalid hex"))
  | some bytes =>
    match readTransaction bytes with
    | none => (a, .error ("Invalid transaction"))
    | some (tx, _) =>
      let txn : Txn := ⟨tx, now, 0⟩
      let txs := a.mempool.txs ++ [txn]
      (⟨{ a.mempool with txs := txs }, some (txs.length - 1)⟩, .ok ())


/-- A reader is good when its result depends only on the consumed
prefix. -/
def PGood {α : Type} (p : P α) : Prop :=
  ∀ bs a rest, p bs = some (a, rest) →
    ∃ c, bs = c ++ rest ∧ ∀ r2, p (c ++ r2) = some (a, r2)


/-- The two's-complement range of a 64-bit signed value. -/
def I64WF (x : Int) : Prop := -(2 ^ 63) ≤ x ∧ x < 2 ^ 63


instance (x : Int) : Decidable (I64WF x) := by unfold I64WF; infer_instance


/-! ### Well-formedness of decoded values -/

/-- Bounds every decoded `TxIn` satisfies. -/
def TxInWF (i : TxIn) : Prop :=
  i.prevTxid.length = 32 ∧ i.prevVout < 2 ^ 32 ∧ i.scriptSig.length < 2 ^ 64 ∧
    i.sequence < 2 ^ 32 ∧ i.witness.length < 2 ^ 64 ∧
    ∀ w ∈ i.witness, w.length < 2 ^ 64


/-- Bounds every decoded `TxOut` satisfies. -/
def TxOutWF (o : TxOut) : Prop :=
  o.value < 2 ^ 64 ∧ o.scriptPubkey.length < 2 ^ 64


/-- Bounds every decoded `Transaction` satisfies. -/
def TxWF (t : Transaction) : Prop :=
  t.version < 2 ^ 32 ∧ t.lockTime < 2 ^ 32 ∧ t.input.length < 2 ^ 64 ∧
    t.output.length < 2 ^ 64 ∧ (∀ i ∈ t.input, TxInWF i) ∧
    ∀ o ∈ t.output, TxOutWF o


/-- Bounds every decoded `Txn` satisfies. -/
def TxnWF (t : Txn) : Prop := TxWF t.tx ∧ I64WF t.time ∧ I64WF t.fee_delta


/-! ## Association-list model of the two keyed collections -/

/-- Model of `HashMap::get`: value of the first entry with the given key. -/
def lookupMap : List (Txid × Int) → Txid → Option Int
  | [], _ => none
  | p :: m, k => if p.1 = k then some p.2 else lookupMap m k


/-- Delta of the last stream occurrence of a key in a raw pair list. -/
def lastDelta (pairs : List (Txid × Int)) (k : Txid) : Option Int :=
  lookupMap pairs.reverse k


/-- Shorthand for the delta-map fold step. -/
def insStep (acc : List (Txid × Int)) (p : Txid × Int) : List (Txid × Int) :=
  insertMap acc p.1 p.2


/-- Erase the witness of an input, as `TxIn::consensus_decode` does. -/
def stripWitness (i : TxIn) : TxIn := { i with witness := [] }


/-- The version-1 body with the two collections kept as raw streams in
file order. -/
def readV1Raw : P (List Txn × List (Txid × Int) × List Txid) := do
  let n ← readU64
  let txs ← pcount readTxn n
  let d ← readVarInt
  let pairs ← pcount readDeltaPair d
  let u ← readVarInt
  let ubs ← pcount readTxid u
  pure (txs, pairs, ubs)


/-! ## Snapshot-level lemmas -/

/-- Well-formedness every snapshot produced by `loadBytes` satisfies. -/
def SnapshotWF (m : MempoolSerde) : Prop :=
  m.version = MEMPOOL_DUMP_VERSION_NO_XOR_KEY ∧
  m.txs.length < 2 ^ 64 ∧ (∀ t ∈ m.txs, TxnWF t) ∧
  m.map_deltas.length < 2 ^ 64 ∧
  (∀ p ∈ m.map_deltas, p.1.length = 32 ∧ I64WF p.2) ∧
  (m.map_deltas.map Prod.fst).Nodup ∧
  m.unbroadcast_txids.length < 2 ^ 64 ∧
  (∀ t ∈ m.unbroadcast_txids, t.length = 32) ∧
  m.unbroadcast_txids.Nodup


/-- The serialized form of the version-1 body. -/
def encodeV1Body (txs : List Txn) (pairs : List (Txid × Int))
    (ubs : List Txid) : Bytes :=
  emitU64 txs.length ++ List.flatten (txs.map encodeTxn) ++
    encodeVarInt pairs.length ++ List.flatten (pairs.map encodeDeltaPair) ++
    encodeVarInt ubs.length ++ List.flatten ubs


/-! ## Concrete inputs used by witnesses and counterexamples -/

/-- Byte literal from a `Nat`. -/
def byteOf (n : Nat) : Byte := ⟨n % 256, Nat.mod_lt _ (by omega)⟩


/-- Byte-list literal from `Nat`s. -/
def bytesOf (l : List Nat) : Bytes := l.map byteOf


/-- A 32-byte identifier (all bytes `0xaa`). -/
def txidAA : Txid := List.replicate 32 (byteOf 0xaa)


/-- The smallest legacy file: version 1, no entries, empty delta map,
empty unbroadcast set (18 bytes). -/
def fileMinimal : Bytes :=
  bytesOf [1, 0, 0, 0, 0, 0, 0, 0, 0, 0, 0, 0, 0, 0, 0, 0, 0, 0]


/-- The snapshot `fileMinimal` decodes to. -/
def snapMinimal : MempoolSerde := ⟨1, [], [], []⟩


/-- The file `fileMinimal` with one junk byte appended. -/
def fileTrailing : Bytes := fileMinimal ++ bytesOf [7]


/-- A legacy file whose delta-map section lists the same identifier
twice (deltas 1 then 2). -/
def fileDup : Bytes :=
  bytesOf [1, 0, 0, 0, 0, 0, 0, 0, 0, 0, 0, 0, 0, 0, 0, 0, 2] ++
    txidAA ++ bytesOf [1, 0, 0, 0, 0, 0, 0, 0] ++
    txidAA ++ bytesOf [2, 0, 0, 0, 0, 0, 0, 0] ++ bytesOf [0]


/-- The snapshot `fileDup` decodes to: one map entry, last delta wins. -/
def snapDup : MempoolSerde := ⟨1, [], [(txidAA, 2)], []⟩


/-- The concrete scenario of the specification: version 1, no entries,
one delta-map pair (identifier → −500), empty unbroadcast set. -/
def fileSpecScenario : Bytes :=
  emitU64 1 ++ emitU64 0 ++ encodeVarInt 1 ++ (txidAA ++ emitI64 (-500)) ++
    encodeVarInt 0


/-- A version-1 file announcing five entries with no bytes after the
count. -/
def fileBadCount : Bytes :=
  bytesOf [1, 0, 0, 0, 0, 0, 0, 0, 5, 0, 0, 0, 0, 0, 0, 0]


/-- A version-2 (masked-layout) header. -/
def fileV2 : Bytes := bytesOf [2, 0, 0, 0, 0, 0, 0, 0]


/-- Two distinguishable dummy entries for editor-state witnesses. -/
def txnA : Txn := ⟨⟨1, 0, [], []⟩, 0, 0⟩


def txnB : Txn := ⟨⟨1, 0, [], []⟩, 5, 0⟩


/-- An editor state with two entries, first selected. -/
def appTwo : App := ⟨⟨1, [txnA, txnB], [], []⟩, some 0⟩


/-- Hex of a minimal legacy transaction: version 1, one input spending
txid 0 vout `0xffffffff` with empty script and sequence `0xffffffff`,
no outputs, lock time 0. -/
def txHexWitness : List Char :=
  ("01000000" ++ "01" ++
    "0000000000000000000000000000000000000000000000000000000000000000" ++
    "ffffffff" ++ "00" ++ "ffffffff" ++ "00" ++ "00000000").toList


/-- The transaction `txHexWitness` encodes. -/
def txWitness : Transaction :=
  ⟨1, 0, [⟨List.replicate 32 (byteOf 0), 0xffffffff, [], 0xffffffff, []⟩], []⟩


theorem natToBytes_length (w v : Nat) : (natToBytes w v).length = w := by
  induction w generalizing v with
  | zero => rfl
  | succ w ih => simp [natToBytes, ih]


theorem bytesToNat_lt (l : Bytes) : bytesToNat l < 256 ^ l.length := by
  induction l with
  | nil => simp [bytesToNat]
  | cons b r ih =>
    have hb := b.isLt
    simp only [bytesToNat, List.length_cons, pow_succ]
    omega


theorem bytesToNat_natToBytes (w v : Nat) :
    bytesToNat (natToBytes w v) = v % 256 ^ w := by
  induction w generalizing v with
  | zero => simp [natToBytes, bytesToNat, Nat.mod_one]
  | succ w ih =>
    simp only [natToBytes, bytesToNat, ih]
    have h : (256 : Nat) ^ (w + 1) = 256 * 256 ^ w := by ring
    rw [h, Nat.mod_mul]


theorem natToBytes_bytesToNat (l : Bytes) :
    natToBytes l.length (bytesToNat l) = l := by
  induction l with
  | nil => rfl
  | cons b r ih =>
    have hb := b.isLt
    simp only [List.length_cons, natToBytes, bytesToNat]
    refine List.cons_eq_cons.mpr ⟨?_, ?_⟩
    · apply Fin.ext
      show (b.val + 256 * bytesToNat r) % 256 = b.val
      omega
    · have h1 : (b.val + 256 * bytesToNat r) / 256 = bytesToNat r := by omega
      rw [h1, ih]


/-! ## Generic reader lemmas

`PGood p` says `p` decides success and its result purely from the bytes
it consumes: on success the input splits as `consumed ++ rest` and the
same consumed prefix yields the same value whatever follows it.  All
readers of the development satisfy it; it drives the trailing-bytes and
truncation theorems. -/

theorem bind_eq {α β : Type} (p : P α) (f : α → P β) : p >>= f = pbind p f := rfl


theorem pure_eq {α : Type} (a : α) : (pure a : P α) = ppure a := rfl


theorem pbind_eq_some {α β : Type} {p : P α} {f : α → P β} {bs : Bytes}
    {b : β} {rest : Bytes} :
    pbind p f bs = some (b, rest) ↔
      ∃ a mid, p bs = some (a, mid) ∧ f a mid = some (b, rest) := by
  unfold pbind
  cases h : p bs with
  | none => simp
  | some x =>
    cases x with
    | mk a mid =>
      simp only [Option.some.injEq, Prod.mk.injEq]
      constructor
      · intro hf
        exact ⟨a, mid, ⟨rfl, rfl⟩, hf⟩
      · rintro ⟨a', mid', ⟨rfl, rfl⟩, hf⟩
        exact hf


theorem pgood_ppure {α : Type} (a : α) : PGood (ppure a) := by
  intro bs a' rest h
  simp only [ppure, Option.some.injEq, Prod.mk.injEq] at h
  exact ⟨[], by simp [h.2], fun r2 => by simp [ppure, h.1]⟩


theorem pgood_pfail {α : Type} : PGood (α := α) pfail := by
  intro bs a rest h
  simp [pfail] at h


theorem pgood_pbind {α β : Type} {p : P α} {f : α → P β}
    (hp : PGood p) (hf : ∀ a, PGood (f a)) : PGood (pbind p f) := by
  intro bs b rest h
  obtain ⟨a, mid, h1, h2⟩ := pbind_eq_some.mp h
  obtain ⟨c1, hbs, hext1⟩ := hp bs a mid h1
  obtain ⟨c2, hmid, hext2⟩ := hf a mid b rest h2
  refine ⟨c1 ++ c2, by rw [hbs, hmid, List.append_assoc], ?_⟩
  intro r2
  have hassoc : (c1 ++ c2) ++ r2 = c1 ++ (c2 ++ r2) := List.append_assoc ..
  rw [hassoc]
  show pbind p f (c1 ++ (c2 ++ r2)) = _
  unfold pbind
  rw [hext1 (c2 ++ r2)]
  exact hext2 r2


theorem pgood_ite {α : Type} {c : Prop} [Decidable c] {p q : P α}
    (hp : PGood p) (hq : PGood q) : PGood (if c then p else q) := by
  split <;> assumption


theorem pgood_readByte : PGood readByte := by
  intro bs a rest h
  unfold readByte at h
  match bs, h with
  | b :: r, h =>
    simp only [Option.some.injEq, Prod.mk.injEq] at h
    exact ⟨[b], by simp [h.2], fun r2 => by simp [readByte, h.1]⟩


theorem pgood_readBytesN (n : Nat) : PGood (readBytesN n) := by
  intro bs a rest h
  unfold readBytesN at h
  split at h
  · rename_i hn
    simp only [Option.some.injEq, Prod.mk.injEq] at h
    obtain ⟨ha, hr⟩ := h
    have hlen : a.length = n := by
      rw [← ha, List.length_take]; omega
    refine ⟨a, by rw [← ha, ← hr]; exact (List.take_append_drop n bs).symm, ?_⟩
    intro r2
    unfold readBytesN
    have hle : n ≤ (a ++ r2).length := by simp [hlen]
    rw [if_pos hle, List.take_append_eq_append_take, List.drop_append_eq_append_drop]
    simp [hlen]
  · exact absurd h (by simp)


theorem pgood_readU16 : PGood readU16 := by
  simp only [readU16, bind_eq, pure_eq]
  exact pgood_pbind (pgood_readBytesN 2) fun b => pgood_ppure _


theorem pgood_readU32 : PGood readU32 := by
  simp only [readU32, bind_eq, pure_eq]
  exact pgood_pbind (pgood_readBytesN 4) fun b => pgood_ppure _


theorem pgood_readU64 : PGood readU64 := by
  simp only [readU64, bind_eq, pure_eq]
  exact pgood_pbind (pgood_readBytesN 8) fun b => pgood_ppure _


theorem pgood_readI64 : PGood readI64 := by
  simp only [readI64, bind_eq, pure_eq]
  exact pgood_pbind pgood_readU64 fun v => pgood_ppure _


theorem pgood_readVarInt : PGood readVarInt := by
  simp only [readVarInt, bind_eq, pure_eq]
  refine pgood_pbind pgood_readByte fun b => ?_
  refine pgood_ite (pgood_ppure _) (pgood_ite ?_ (pgood_ite ?_ ?_))
  · exact pgood_pbind pgood_readU16 fun x => pgood_ite pgood_pfail (pgood_ppure _)
  · exact pgood_pbind pgood_readU32 fun x => pgood_ite pgood_pfail (pgood_ppure _)
  · exact pgood_pbind pgood_readU64 fun x => pgood_ite pgood_pfail (pgood_ppure _)


theorem pgood_readTxid : PGood readTxid := pgood_readBytesN 32


theorem pgood_readBlob : PGood readBlob := by
  simp only [readBlob, bind_eq, pure_eq]
  exact pgood_pbind pgood_readVarInt fun n => pgood_readBytesN n


theorem pgood_pcount {α : Type} {p : P α} (hp : PGood p) (n : Nat) :
    PGood (pcount p n) := by
  induction n with
  | zero => exact pgood_ppure _
  | succ n ih =>
    simp only [pcount, bind_eq, pure_eq]
    exact pgood_pbind hp fun a => pgood_pbind ih fun as => pgood_ppure _


theorem pgood_readVec {α : Type} {p : P α} (hp : PGood p) : PGood (readVec p) := by
  simp only [readVec, bind_eq, pure_eq]
  exact pgood_pbind pgood_readVarInt fun n => pgood_pcount hp n


theorem pgood_readWitness : PGood readWitness := by
  simp only [readWitness, bind_eq, pure_eq]
  exact pgood_pbind pgood_readVarInt fun n => pgood_pcount pgood_readBlob n


theorem pgood_readTxIn : PGood readTxIn := by
  simp only [readTxIn, bind_eq, pure_eq]
  exact pgood_pbind pgood_readTxid fun h =>
    pgood_pbind pgood_readU32 fun vout =>
      pgood_pbind pgood_readBlob fun scr =>
        pgood_pbind pgood_readU32 fun seq => pgood_ppure _


theorem pgood_readTxOut : PGood readTxOut := by
  simp only [readTxOut, bind_eq, pure_eq]
  exact pgood_pbind pgood_readU64 fun v =>
    pgood_pbind pgood_readBlob fun scr => pgood_ppure _


theorem pgood_readTransaction : PGood readTransaction := by
  simp only [readTransaction, bind_eq, pure_eq]
  refine pgood_pbind pgood_readU32 fun version => ?_
  refine pgood_pbind (pgood_readVec pgood_readTxIn) fun input => ?_
  refine pgood_ite ?_ ?_
  · refine pgood_pbind pgood_readByte fun flag => ?_
    refine pgood_ite ?_ pgood_pfail
    refine pgood_pbind (pgood_readVec pgood_readTxIn) fun input2 => ?_
    refine pgood_pbind (pgood_readVec pgood_readTxOut) fun output => ?_
    refine pgood_pbind (pgood_pcount pgood_readWitness _) fun ws => ?_
    refine pgood_ite pgood_pfail ?_
    exact pgood_pbind pgood_readU32 fun lt => pgood_ppure _
  · refine pgood_pbind (pgood_readVec pgood_readTxOut) fun output => ?_
    exact pgood_pbind pgood_readU32 fun lt => pgood_ppure _


theorem pgood_readTxn : PGood readTxn := by
  simp only [readTxn, bind_eq, pure_eq]
  exact pgood_pbind pgood_readTransaction fun tx =>
    pgood_pbind pgood_readI64 fun t =>
      pgood_pbind pgood_readI64 fun f => pgood_ppure _


theorem pgood_readDeltaPair : PGood readDeltaPair := by
  simp only [readDeltaPair, bind_eq, pure_eq]
  exact pgood_pbind pgood_readTxid fun t =>
    pgood_pbind pgood_readI64 fun d => pgood_ppure _


theorem pgood_readDeltaLoop (n : Nat) :
    ∀ m, PGood (readDeltaLoop n m) := by
  induction n with
  | zero => exact fun m => pgood_ppure _
  | succ n ih =>
    intro m
    simp only [readDeltaLoop, bind_eq, pure_eq]
    exact pgood_pbind pgood_readDeltaPair fun p => ih _


theorem pgood_readUnbroadcastLoop (n : Nat) :
    ∀ s, PGood (readUnbroadcastLoop n s) := by
  induction n with
  | zero => exact fun s => pgood_ppure _
  | succ n ih =>
    intro s
    simp only [readUnbroadcastLoop, bind_eq, pure_eq]
    exact pgood_pbind pgood_readTxid fun t => ih _


theorem pgood_readV1Body : PGood readV1Body := by
  simp only [readV1Body, bind_eq, pure_eq]
  refine pgood_pbind pgood_readU64 fun n => ?_
  refine pgood_pbind (pgood_pcount pgood_readTxn n) fun txs => ?_
  refine pgood_pbind pgood_readVarInt fun d => ?_
  refine pgood_pbind (pgood_readDeltaLoop d []) fun m => ?_
  refine pgood_pbind pgood_readVarInt fun u => ?_
  exact pgood_pbind (pgood_readUnbroadcastLoop u []) fun s => pgood_ppure _


/-- A good reader fails on every strict prefix of what it consumed. -/
theorem pgood_trunc {α : Type} {p : P α} (hp : PGood p) {bs : Bytes}
    {a : α} {rest : Bytes} (h : p bs = some (a, rest)) :
    ∀ k, k < bs.length - rest.length → p (bs.take k) = none := by
  intro k hk
  cases hpk : p (bs.take k) with
  | none => rfl
  | some x =>
    obtain ⟨a', rest'⟩ := x
    obtain ⟨c', hc', hext⟩ := hp _ _ _ hpk
    have h2 : p (c' ++ (rest' ++ bs.drop k)) = some (a', rest' ++ bs.drop k) :=
      hext _
    have h3 : c' ++ (rest' ++ bs.drop k) = bs := by
      rw [← List.append_assoc, ← hc', List.take_append_drop]
    rw [h3, h] at h2
    have h4 : rest = rest' ++ bs.drop k := by
      have := (Option.some.injEq _ _).mp h2
      exact (Prod.mk.injEq .. ▸ this).2
    have h5 : rest.length = rest'.length + (bs.length - k) := by
      rw [h4, List.length_append, List.length_drop]
    omega


/-! ## Faithfulness: a successful decode consumes exactly the encoding

For each reader, success on `bs` forces `bs = encode value ++ rest`,
with the well-formedness bounds that decoded values always satisfy.
Together these prove the byte-exact round-trip direction
`serialize (load F) = F`. -/

theorem ppure_eq_some {α : Type} {a b : α} {bs rest : Bytes} :
    ppure a bs = some (b, rest) ↔ b = a ∧ rest = bs := by
  simp only [ppure, Option.some.injEq, Prod.mk.injEq]
  tauto


theorem readBytesN_spec {n : Nat} {bs a rest : Bytes}
    (h : readBytesN n bs = some (a, rest)) :
    bs = a ++ rest ∧ a.length = n := by
  unfold readBytesN at h
  split at h
  · rename_i hn
    simp only [Option.some.injEq, Prod.mk.injEq] at h
    obtain ⟨ha, hr⟩ := h
    constructor
    · rw [← ha, ← hr]; exact (List.take_append_drop n bs).symm
    · rw [← ha, List.length_take]; omega
  · exact absurd h (by simp)


theorem readU16_spec {bs : Bytes} {v : Nat} {rest : Bytes}
    (h : readU16 bs = some (v, rest)) :
    bs = natToBytes 2 v ++ rest ∧ v < 2 ^ 16 := by
  simp only [readU16, bind_eq, pure_eq] at h
  obtain ⟨a, mid, h1, h2⟩ := pbind_eq_some.mp h
  obtain ⟨hv, hrest⟩ := ppure_eq_some.mp h2
  obtain ⟨hbs, hlen⟩ := readBytesN_spec h1
  subst hv hrest
  refine ⟨?_, ?_⟩
  · rw [hbs]
    congr 1
    rw [show (2 : Nat) = a.length from hlen.symm, natToBytes_bytesToNat]
  · have := bytesToNat_lt a
    rw [hlen] at this
    omega


theorem readU32_spec {bs : Bytes} {v : Nat} {rest : Bytes}
    (h : readU32 bs = some (v, rest)) :
    bs = natToBytes 4 v ++ rest ∧ v < 2 ^ 32 := by
  simp only [readU32, bind_eq, pure_eq] at h
  obtain ⟨a, mid, h1, h2⟩ := pbind_eq_some.mp h
  obtain ⟨hv, hrest⟩ := ppure_eq_some.mp h2
  obtain ⟨hbs, hlen⟩ := readBytesN_spec h1
  subst hv hrest
  refine ⟨?_, ?_⟩
  · rw [hbs]
    congr 1
    rw [show (4 : Nat) = a.length from hlen.symm, natToBytes_bytesToNat]
  · have := bytesToNat_lt a
    rw [hlen] at this
    omega


theorem readU64_spec {bs : Bytes} {v : Nat} {rest : Bytes}
    (h : readU64 bs = some (v, rest)) :
    bs = natToBytes 8 v ++ rest ∧ v < 2 ^ 64 := by
  simp only [readU64, bind_eq, pure_eq] at h
  obtain ⟨a, mid, h1, h2⟩ := pbind_eq_some.mp h
  obtain ⟨hv, hrest⟩ := ppure_eq_some.mp h2
  obtain ⟨hbs, hlen⟩ := readBytesN_spec h1
  subst hv hrest
  refine ⟨?_, ?_⟩
  · rw [hbs]
    congr 1
    rw [show (8 : Nat) = a.length from hlen.symm, natToBytes_bytesToNat]
  · have := bytesToNat_lt a
    rw [hlen] at this
    omega


theorem emitI64_toI64 {v : Nat} (hv : v < 2 ^ 64) :
    emitI64 (toI64 v) = natToBytes 8 v := by
  unfold emitI64 toI64
  congr 1
  have hN : ((2 ^ 64 : Nat) : Int) = 2 ^ 64 := by norm_num
  rw [hN]
  have hv' : (v : Int) < 2 ^ 64 := by exact_mod_cast hv
  split <;> omega


theorem toI64_wf {v : Nat} (hv : v < 2 ^ 64) : I64WF (toI64 v) := by
  unfold toI64 I64WF
  have hv' : (v : Int) < 2 ^ 64 := by exact_mod_cast hv
  split <;> constructor <;> omega


theorem readI64_spec {bs : Bytes} {x : Int} {rest : Bytes}
    (h : readI64 bs = some (x, rest)) :
    bs = emitI64 x ++ rest ∧ I64WF x := by
  simp only [readI64, bind_eq, pure_eq] at h
  obtain ⟨v, mid, h1, h2⟩ := pbind_eq_some.mp h
  obtain ⟨hx, hrest⟩ := ppure_eq_some.mp h2
  obtain ⟨hbs, hv⟩ := readU64_spec h1
  subst hx hrest
  exact ⟨by rw [hbs, emitI64_toI64 hv], toI64_wf hv⟩


theorem readVarInt_spec {bs : Bytes} {v : Nat} {rest : Bytes}
    (h : readVarInt bs = some (v, rest)) :
    bs = encodeVarInt v ++ rest ∧ v < 2 ^ 64 := by
  simp only [readVarInt, bind_eq, pure_eq] at h
  obtain ⟨b, mid, h1, h2⟩ := pbind_eq_some.mp h
  have hbbs : bs = b :: mid := by
    unfold readByte at h1
    match bs, h1 with
    | x :: r, h1 =>
      simp only [Option.some.injEq, Prod.mk.injEq] at h1
      rw [h1.1, h1.2]
  split at h2
  · rename_i hb
    obtain ⟨hv, hrest⟩ := ppure_eq_some.mp h2
    subst hv hrest
    refine ⟨?_, by omega⟩
    rw [hbbs]
    unfold encodeVarInt
    rw [if_pos hb]
    have : (⟨b.val % 256, Nat.mod_lt _ (by omega)⟩ : Byte) = b := by
      apply Fin.ext
      simp [Nat.mod_eq_of_lt b.isLt]
    simp [this]
  · split at h2
    · rename_i hb hfd
      obtain ⟨x, mid2, h3, h4⟩ := pbind_eq_some.mp h2
      split at h4
      · exact absurd h4 (by simp [pfail])
      · rename_i hxge
        obtain ⟨hv, hrest⟩ := ppure_eq_some.mp h4
        subst hv hrest
        obtain ⟨hmid, hx⟩ := readU16_spec h3
        refine ⟨?_, by omega⟩
        rw [hbbs, hmid]
        unfold encodeVarInt
        rw [if_neg (by omega), if_pos (by omega)]
        have : (⟨0xfd, by omega⟩ : Byte) = b := Fin.ext (by simp [hfd])
        rw [this]
        simp
    · split at h2
      · rename_i hb hfd hfe
        obtain ⟨x, mid2, h3, h4⟩ := pbind_eq_some.mp h2
        split at h4
        · exact absurd h4 (by simp [pfail])
        · rename_i hxge
          obtain ⟨hv, hrest⟩ := ppure_eq_some.mp h4
          subst hv hrest
          obtain ⟨hmid, hx⟩ := readU32_spec h3
          refine ⟨?_, by omega⟩
          rw [hbbs, hmid]
          unfold encodeVarInt
          rw [if_neg (by omega), if_neg (by omega), if_pos (by omega)]
          have : (⟨0xfe, by omega⟩ : Byte) = b := Fin.ext (by simp [hfe])
          rw [this]
          simp
      · rename_i hb hfd hfe
        obtain ⟨x, mid2, h3, h4⟩ := pbind_eq_some.mp h2
        split at h4
        · exact absurd h4 (by simp [pfail])
        · rename_i hxge
          obtain ⟨hv, hrest⟩ := ppure_eq_some.mp h4
          subst hv hrest
          obtain ⟨hmid, hx⟩ := readU64_spec h3
          refine ⟨?_, by omega⟩
          rw [hbbs, hmid]
          unfold encodeVarInt
          rw [if_neg (by omega), if_neg (by omega), if_neg (by omega)]
          have hb255 : b.val = 0xff := by
            have := b.isLt
            omega
          have : (⟨0xff, by omega⟩ : Byte) = b := Fin.ext (by simp [hb255])
          rw [this]
          simp


theorem readTxid_spec {bs : Bytes} {t : Txid} {rest : Bytes}
    (h : readTxid bs = some (t, rest)) :
    bs = t ++ rest ∧ t.length = 32 := readBytesN_spec h


theorem readBlob_spec {bs : Bytes} {a : Bytes} {rest : Bytes}
    (h : readBlob bs = some (a, rest)) :
    bs = encodeBlob a ++ rest ∧ a.length < 2 ^ 64 := by
  simp only [readBlob, bind_eq, pure_eq] at h
  obtain ⟨n, mid, h1, h2⟩ := pbind_eq_some.mp h
  obtain ⟨hmid, hn⟩ := readVarInt_spec h1
  obtain ⟨hmid2, hlen⟩ := readBytesN_spec h2
  unfold encodeBlob
  rw [hmid, hmid2, hlen, List.append_assoc]
  exact ⟨rfl, by omega⟩


/-- Faithfulness of `pcount`, generic in the element reader: the input
splits as the concatenated element encodings, the list has the requested
length, and every element satisfies whatever the element reader
guarantees. -/
theorem pcount_spec {α : Type} {p : P α} {e : α → Bytes} {Q : α → Prop}
    (hp : ∀ bs a rest, p bs = some (a, rest) → bs = e a ++ rest ∧ Q a) :
    ∀ {n : Nat} {bs : Bytes} {l : List α} {rest : Bytes},
      pcount p n bs = some (l, rest) →
      bs = List.flatten (l.map e) ++ rest ∧ l.length = n ∧ ∀ a ∈ l, Q a := by
  intro n
  induction n with
  | zero =>
    intro bs l rest h
    obtain ⟨hl, hrest⟩ := ppure_eq_some.mp h
    subst hl hrest
    simp
  | succ n ih =>
    intro bs l rest h
    simp only [pcount, bind_eq, pure_eq] at h
    obtain ⟨a, mid, h1, h2⟩ := pbind_eq_some.mp h
    obtain ⟨as, mid2, h3, h4⟩ := pbind_eq_some.mp h2
    obtain ⟨hl, hrest⟩ := ppure_eq_some.mp h4
    subst hl hrest
    obtain ⟨hmid, hlen, hq⟩ := ih h3
    obtain ⟨hbs, hqa⟩ := hp _ _ _ h1
    refine ⟨?_, by simp [hlen], ?_⟩
    · rw [hbs, hmid]
      simp
    · intro x hx
      rcases List.mem_cons.mp hx with rfl | hx
      · exact hqa
      · exact hq x hx


theorem readTxIn_spec {bs : Bytes} {i : TxIn} {rest : Bytes}
    (h : readTxIn bs = some (i, rest)) :
    bs = encodeTxIn i ++ rest ∧ TxInWF i ∧ i.witness = [] := by
  simp only [readTxIn, bind_eq, pure_eq] at h
  obtain ⟨t, m1, h1, h⟩ := pbind_eq_some.mp h
  obtain ⟨vout, m2, h2, h⟩ := pbind_eq_some.mp h
  obtain ⟨scr, m3, h3, h⟩ := pbind_eq_some.mp h
  obtain ⟨seq, m4, h4, h⟩ := pbind_eq_some.mp h
  obtain ⟨hi, hrest⟩ := ppure_eq_some.mp h
  subst hi hrest
  obtain ⟨hb1, hl1⟩ := readTxid_spec h1
  obtain ⟨hb2, hv2⟩ := readU32_spec h2
  obtain ⟨hb3, hl3⟩ := readBlob_spec h3
  obtain ⟨hb4, hv4⟩ := readU32_spec h4
  refine ⟨?_, ⟨hl1, hv2, ?_, hv4, by simp, by simp⟩, rfl⟩
  · rw [hb1, hb2, hb3, hb4]
    unfold encodeTxIn encodeBlob
    simp [List.append_assoc]
  · exact hl3


theorem readTxOut_spec {bs : Bytes} {o : TxOut} {rest : Bytes}
    (h : readTxOut bs = some (o, rest)) :
    bs = encodeTxOut o ++ rest ∧ TxOutWF o := by
  simp only [readTxOut, bind_eq, pure_eq] at h
  obtain ⟨v, m1, h1, h⟩ := pbind_eq_some.mp h
  obtain ⟨scr, m2, h2, h⟩ := pbind_eq_some.mp h
  obtain ⟨ho, hrest⟩ := ppure_eq_some.mp h
  subst ho hrest
  obtain ⟨hb1, hv1⟩ := readU64_spec h1
  obtain ⟨hb2, hl2⟩ := readBlob_spec h2
  refine ⟨?_, hv1, hl2⟩
  rw [hb1, hb2]
  unfold encodeTxOut
  simp [List.append_assoc]


theorem readVec_spec {α : Type} {p : P α} {e : α → Bytes} {Q : α → Prop}
    (hp : ∀ bs a rest, p bs = some (a, rest) → bs = e a ++ rest ∧ Q a)
    {bs : Bytes} {l : List α} {rest : Bytes}
    (h : readVec p bs = some (l, rest)) :
    bs = encodeVec e l ++ rest ∧ l.length < 2 ^ 64 ∧ ∀ a ∈ l, Q a := by
  simp only [readVec, bind_eq, pure_eq] at h
  obtain ⟨n, mid, h1, h2⟩ := pbind_eq_some.mp h
  obtain ⟨hb1, hn⟩ := readVarInt_spec h1
  obtain ⟨hb2, hlen, hq⟩ := pcount_spec hp h2
  refine ⟨?_, by omega, hq⟩
  rw [hb1, hb2]
  unfold encodeVec
  rw [hlen, List.append_assoc]


theorem readWitness_spec {bs : Bytes} {w : List Bytes} {rest : Bytes}
    (h : readWitness bs = some (w, rest)) :
    bs = encodeWitness w ++ rest ∧ w.length < 2 ^ 64 ∧
      ∀ b ∈ w, b.length < 2 ^ 64 := by
  simp only [readWitness, bind_eq, pure_eq] at h
  obtain ⟨n, mid, h1, h2⟩ := pbind_eq_some.mp h
  obtain ⟨hb1, hn⟩ := readVarInt_spec h1
  obtain ⟨hb2, hlen, hq⟩ := pcount_spec (fun _ _ _ hh => readBlob_spec hh) h2
  refine ⟨?_, by omega, hq⟩
  rw [hb1, hb2]
  unfold encodeWitness
  rw [hlen, List.append_assoc]


/-! ### `setWitnesses` facts -/

theorem setWitnesses_map_encodeTxIn (is : List TxIn) (ws : List (List Bytes)) :
    (setWitnesses is ws).map encodeTxIn = is.map encodeTxIn := by
  induction is generalizing ws with
  | nil => cases ws <;> rfl
  | cons i is ih =>
    cases ws with
    | nil => rfl
    | cons w ws =>
      simp only [setWitnesses, List.map_cons, ih]
      rfl


theorem setWitnesses_length (is : List TxIn) (ws : List (List Bytes)) :
    (setWitnesses is ws).length = is.length := by
  induction is generalizing ws with
  | nil => cases ws <;> rfl
  | cons i is ih =>
    cases ws with
    | nil => rfl
    | cons w ws => simp [setWitnesses, ih]


theorem setWitnesses_witnesses {is : List TxIn} {ws : List (List Bytes)}
    (h : is.length = ws.length) :
    (setWitnesses is ws).map TxIn.witness = ws := by
  induction is generalizing ws with
  | nil =>
    cases ws with
    | nil => rfl
    | cons w ws => simp at h
  | cons i is ih =>
    cases ws with
    | nil => simp at h
    | cons w ws =>
      simp only [setWitnesses, List.map_cons]
      rw [ih (by simpa using h)]


theorem setWitnesses_wf {is : List TxIn} {ws : List (List Bytes)}
    (hi : ∀ i ∈ is, TxInWF i)
    (hw : ∀ w ∈ ws, w.length < 2 ^ 64 ∧ ∀ b ∈ w, b.length < 2 ^ 64) :
    ∀ i ∈ setWitnesses is ws, TxInWF i := by
  induction is generalizing ws with
  | nil =>
    cases ws with
    | nil => simp [setWitnesses]
    | cons w ws => simp [setWitnesses]
  | cons i is ih =>
    cases ws with
    | nil => exact hi
    | cons w ws =>
      intro x hx
      rcases List.mem_cons.mp hx with rfl | hx
      · obtain ⟨h1, h2, h3, h4, -, -⟩ := hi i (by simp)
        obtain ⟨hw1, hw2⟩ := hw w (by simp)
        exact ⟨h1, h2, h3, h4, hw1, hw2⟩
      · exact ih (fun j hj => hi j (by simp [hj]))
          (fun v hv => hw v (by simp [hv])) x hx


theorem encodeVec_setWitnesses (is : List TxIn) (ws : List (List Bytes)) :
    encodeVec encodeTxIn (setWitnesses is ws) = encodeVec encodeTxIn is := by
  unfold encodeVec
  rw [setWitnesses_length, setWitnesses_map_encodeTxIn]


theorem readByte_spec {bs : Bytes} {b : Byte} {rest : Bytes}
    (h : readByte bs = some (b, rest)) : bs = b :: rest := by
  unfold readByte at h
  match bs, h with
  | x :: r, h =>
    simp only [Option.some.injEq, Prod.mk.injEq] at h
    rw [h.1, h.2]


theorem readTransaction_spec {bs : Bytes} {t : Transaction} {rest : Bytes}
    (h : readTransaction bs = some (t, rest)) :
    bs = encodeTransaction t ++ rest ∧ TxWF t := by
  simp only [readTransaction, bind_eq, pure_eq] at h
  obtain ⟨version, m1, hv, h⟩ := pbind_eq_some.mp h
  obtain ⟨input, m2, hi, h⟩ := pbind_eq_some.mp h
  obtain ⟨hbv, hvlt⟩ := readU32_spec hv
  split at h
  · -- segwit path: the input vector decoded empty
    rename_i hemp
    have hinil : input = [] := List.isEmpty_iff.mp hemp
    subst hinil
    obtain ⟨hb1, -, -⟩ := readVec_spec (fun _ _ _ hh => readTxIn_spec hh) hi
    obtain ⟨flag, m3, hf, h⟩ := pbind_eq_some.mp h
    have hb2 := readByte_spec hf
    split at h
    · rename_i hflag
      obtain ⟨input2, m4, hi2, h⟩ := pbind_eq_some.mp h
      obtain ⟨output, m5, ho, h⟩ := pbind_eq_some.mp h
      obtain ⟨ws, m6, hw, h⟩ := pbind_eq_some.mp h
      obtain ⟨hb3, hil, hiq⟩ := readVec_spec (fun _ _ _ hh => readTxIn_spec hh) hi2
      obtain ⟨hb4, hol, hoq⟩ := readVec_spec (fun _ _ _ hh => readTxOut_spec hh) ho
      obtain ⟨hb5, hwlen, hwq⟩ := pcount_spec (fun _ _ _ hh => readWitness_spec hh) hw
      split at h
      · exact absurd h (by simp [pfail])
      · rename_i hcond
        obtain ⟨lt, m7, hlt, h⟩ := pbind_eq_some.mp h
        obtain ⟨ht, hrest⟩ := ppure_eq_some.mp h
        subst ht hrest
        obtain ⟨hb6, hltlt⟩ := readU32_spec hlt
        have hsw : usesSegwit ⟨version, lt, setWitnesses input2 ws, output⟩ = true := by
          unfold usesSegwit
          cases hE : (setWitnesses input2 ws).isEmpty with
          | true => simp [hE]
          | false =>
            simp only [hE, Bool.or_false]
            rw [List.any_eq_true]
            have hcall :
                ¬ ((setWitnesses input2 ws).all fun i => i.witness.isEmpty) = true := by
              intro hcall
              exact hcond ⟨by simp [hE], hcall⟩
            rw [List.all_eq_true] at hcall
            push_neg at hcall
            obtain ⟨x, hx, hxw⟩ := hcall
            refine ⟨x, hx, ?_⟩
            have hfalse : x.witness.isEmpty = false := by
              cases hb : x.witness.isEmpty
              · rfl
              · exact absurd hb hxw
            simp [hfalse]
        have hmapw : (setWitnesses input2 ws).map (fun i => encodeWitness i.witness) =
            ws.map encodeWitness := by
          have h1 : (setWitnesses input2 ws).map (fun i => encodeWitness i.witness) =
              ((setWitnesses input2 ws).map TxIn.witness).map encodeWitness := by
            rw [List.map_map]
            rfl
          rw [h1, setWitnesses_witnesses hwlen.symm]
        have hflagb : flag = (1 : Byte) := Fin.ext (by simpa using hflag)
        have hnil : encodeVec encodeTxIn ([] : List TxIn) = [(0 : Byte)] := by decide
        constructor
        · rw [hbv, hb1, hnil, hb2, hflagb, hb3, hb4, hb5, hb6]
          unfold encodeTransaction
          rw [hsw]
          simp only [if_true]
          rw [encodeVec_setWitnesses, hmapw]
          simp [List.append_assoc]
        · refine ⟨hvlt, hltlt, ?_, hol, ?_, hoq⟩
          · rw [setWitnesses_length]
            exact hil
          · exact setWitnesses_wf (fun i hmem => (hiq i hmem).1) hwq
    · exact absurd h (by simp [pfail])
  · -- legacy path: non-empty input vector, witnesses stay empty
    rename_i hemp
    obtain ⟨hb1, hil, hiq⟩ := readVec_spec (fun _ _ _ hh => readTxIn_spec hh) hi
    obtain ⟨output, m5, ho, h⟩ := pbind_eq_some.mp h
    obtain ⟨lt, m6, hlt, h⟩ := pbind_eq_some.mp h
    obtain ⟨ht, hrest⟩ := ppure_eq_some.mp h
    subst ht hrest
    obtain ⟨hb4, hol, hoq⟩ := readVec_spec (fun _ _ _ hh => readTxOut_spec hh) ho
    obtain ⟨hb6, hltlt⟩ := readU32_spec hlt
    have hsw : usesSegwit ⟨version, lt, input, output⟩ = false := by
      unfold usesSegwit
      rw [Bool.or_eq_false_iff]
      constructor
      · rw [List.any_eq_false]
        intro x hx
        have hxw : x.witness = [] := (hiq x hx).2
        simp [hxw]
      · rw [Bool.not_eq_true] at hemp
        exact hemp
    constructor
    · rw [hbv, hb1, hb4, hb6]
      unfold encodeTransaction
      rw [hsw]
      simp [List.append_assoc]
    · exact ⟨hvlt, hltlt, hil, hol, fun i hmem => (hiq i hmem).1, hoq⟩


theorem readTxn_spec {bs : Bytes} {t : Txn} {rest : Bytes}
    (h : readTxn bs = some (t, rest)) :
    bs = encodeTxn t ++ rest ∧ TxnWF t := by
  simp only [readTxn, bind_eq, pure_eq] at h
  obtain ⟨tx, m1, h1, h⟩ := pbind_eq_some.mp h
  obtain ⟨time, m2, h2, h⟩ := pbind_eq_some.mp h
  obtain ⟨fee, m3, h3, h⟩ := pbind_eq_some.mp h
  obtain ⟨ht, hrest⟩ := ppure_eq_some.mp h
  subst ht hrest
  obtain ⟨hb1, hwf1⟩ := readTransaction_spec h1
  obtain ⟨hb2, hwf2⟩ := readI64_spec h2
  obtain ⟨hb3, hwf3⟩ := readI64_spec h3
  refine ⟨?_, hwf1, hwf2, hwf3⟩
  rw [hb1, hb2, hb3]
  unfold encodeTxn
  simp [List.append_assoc]


theorem readDeltaPair_spec {bs : Bytes} {p : Txid × Int} {rest : Bytes}
    (h : readDeltaPair bs = some (p, rest)) :
    bs = encodeDeltaPair p ++ rest ∧ p.1.length = 32 ∧ I64WF p.2 := by
  simp only [readDeltaPair, bind_eq, pure_eq] at h
  obtain ⟨txid, m1, h1, h⟩ := pbind_eq_some.mp h
  obtain ⟨delta, m2, h2, h⟩ := pbind_eq_some.mp h
  obtain ⟨hp, hrest⟩ := ppure_eq_some.mp h
  subst hp hrest
  obtain ⟨hb1, hl1⟩ := readTxid_spec h1
  obtain ⟨hb2, hwf2⟩ := readI64_spec h2
  refine ⟨?_, hl1, hwf2⟩
  rw [hb1, hb2]
  unfold encodeDeltaPair
  simp [List.append_assoc]


theorem lookupMap_append (l1 l2 : List (Txid × Int)) (k : Txid) :
    lookupMap (l1 ++ l2) k =
      match lookupMap l1 k with
      | some v => some v
      | none => lookupMap l2 k := by
  induction l1 with
  | nil => simp [lookupMap]
  | cons p l1 ih =>
    by_cases hp : p.1 = k
    · simp [lookupMap, hp]
    · simp [lookupMap, hp, ih]


theorem insertMap_of_not_mem {m : List (Txid × Int)} {k' : Txid} (v' : Int)
    (h : k' ∉ m.map Prod.fst) : insertMap m k' v' = m ++ [(k', v')] := by
  unfold insertMap
  rw [if_neg]
  intro hany
  simp only [List.any_eq_true, decide_eq_true_eq] at hany
  obtain ⟨q, hq, hqk⟩ := hany
  exact h (List.mem_map.mpr ⟨q, hq, hqk⟩)


theorem keys_insertMap_of_mem {m : List (Txid × Int)} {k' : Txid} (v' : Int)
    (h : k' ∈ m.map Prod.fst) :
    (insertMap m k' v').map Prod.fst = m.map Prod.fst := by
  unfold insertMap
  rw [if_pos]
  · rw [List.map_map]
    apply List.map_congr_left
    intro p hp
    show (if p.1 = k' then (k', v') else p).1 = p.1
    split
    · rename_i hpk
      rw [hpk]
    · rfl
  · simp only [List.mem_map] at h
    obtain ⟨q, hq, hqk⟩ := h
    simp only [List.any_eq_true, decide_eq_true_eq]
    exact ⟨q, hq, hqk⟩


theorem keysNodup_insertMap {m : List (Txid × Int)} (k' : Txid) (v' : Int)
    (h : (m.map Prod.fst).Nodup) : ((insertMap m k' v').map Prod.fst).Nodup := by
  by_cases hmem : k' ∈ m.map Prod.fst
  · rw [keys_insertMap_of_mem v' hmem]
    exact h
  · rw [insertMap_of_not_mem v' hmem, List.map_append]
    simp only [List.map_cons, List.map_nil]
    rw [List.nodup_append]
    exact ⟨h, List.nodup_singleton k', by simpa using hmem⟩


theorem lookupMap_eq_none_of_not_mem {m : List (Txid × Int)} {k : Txid}
    (h : k ∉ m.map Prod.fst) : lookupMap m k = none := by
  induction m with
  | nil => rfl
  | cons p m ih =>
    simp only [List.map_cons, List.mem_cons, not_or] at h
    unfold lookupMap
    rw [if_neg (fun hc => h.1 hc.symm)]
    exact ih h.2


theorem lookupMap_isSome_of_mem {m : List (Txid × Int)} {k : Txid}
    (h : k ∈ m.map Prod.fst) : (lookupMap m k).isSome := by
  induction m with
  | nil => simp at h
  | cons p m ih =>
    unfold lookupMap
    by_cases hp : p.1 = k
    · simp [hp]
    · simp only [List.map_cons, List.mem_cons] at h
      rcases h with h | h
      · exact absurd h.symm hp
      · simp only [if_neg hp]
        exact ih h


theorem lookupMap_map_subst (m : List (Txid × Int)) (k' : Txid) (v' : Int)
    (k : Txid) :
    lookupMap (m.map fun p => if p.1 = k' then (k', v') else p) k =
      if k = k' then (if (lookupMap m k').isSome then some v' else none)
      else lookupMap m k := by
  induction m with
  | nil => simp [lookupMap]
  | cons p m ih =>
    by_cases hpk' : p.1 = k'
    · by_cases hkk' : k = k'
      · subst hkk'
        simp [lookupMap, hpk', ih]
      · have hk'k : ¬ ((k' : Txid) = k) := fun hc => hkk' hc.symm
        have hpk : ¬ (p.1 = k) := by rw [hpk']; exact hk'k
        simp [lookupMap, hpk', hk'k, hkk', hpk, ih]
    · by_cases hpk : p.1 = k
      · have hkk' : ¬ (k = k') := fun hc => hpk' (by rw [← hc]; exact hpk)
        simp [lookupMap, hpk', hpk, hkk']
      · simp [lookupMap, hpk', hpk, ih]


theorem lookupMap_insertMap (m : List (Txid × Int)) (k' : Txid) (v' : Int)
    (k : Txid) :
    lookupMap (insertMap m k' v') k =
      if k = k' then some v' else lookupMap m k := by
  by_cases hmem : k' ∈ m.map Prod.fst
  · unfold insertMap
    rw [if_pos (by
      simp only [List.mem_map] at hmem
      obtain ⟨q, hq, hqk⟩ := hmem
      simp only [List.any_eq_true, decide_eq_true_eq]
      exact ⟨q, hq, hqk⟩)]
    rw [lookupMap_map_subst]
    rw [lookupMap_isSome_of_mem hmem]
    simp
  · rw [insertMap_of_not_mem v' hmem, lookupMap_append]
    by_cases hkk' : k = k'
    · subst hkk'
      rw [lookupMap_eq_none_of_not_mem hmem]
      simp [lookupMap]
    · rw [if_neg hkk']
      cases hm : lookupMap m k with
      | some v => simp
      | none =>
        simp only [lookupMap]
        rw [if_neg (fun hc => hkk' hc.symm)]


theorem lookupMap_foldl (pairs : List (Txid × Int)) (k : Txid) :
    ∀ m, lookupMap (pairs.foldl insStep m) k =
      match lastDelta pairs k with
      | some v => some v
      | none => lookupMap m k := by
  induction pairs with
  | nil => intro m; simp [lastDelta, lookupMap]
  | cons p pairs ih =>
    intro m
    have hcons : lastDelta (p :: pairs) k =
        match lastDelta pairs k with
        | some v => some v
        | none => if p.1 = k then some p.2 else none := by
      unfold lastDelta
      rw [List.reverse_cons, lookupMap_append]
      cases lookupMap pairs.reverse k with
      | some v => rfl
      | none => simp [lookupMap]
    rw [List.foldl_cons, ih, hcons]
    cases lastDelta pairs k with
    | some v => rfl
    | none =>
      show lookupMap (insStep m p) k = _
      unfold insStep
      rw [lookupMap_insertMap]
      by_cases hpk : p.1 = k
      · rw [if_pos hpk.symm, if_pos hpk]
      · rw [if_neg (fun hc => hpk hc.symm), if_neg hpk]


theorem keysNodup_foldl (pairs : List (Txid × Int)) :
    ∀ m, (m.map Prod.fst).Nodup →
      ((pairs.foldl insStep m).map Prod.fst).Nodup := by
  induction pairs with
  | nil => intro m h; exact h
  | cons p pairs ih =>
    intro m h
    rw [List.foldl_cons]
    exact ih _ (keysNodup_insertMap p.1 p.2 h)


theorem foldl_insertMap_eq_append (pairs : List (Txid × Int)) :
    ∀ m, (pairs.map Prod.fst).Nodup →
      (∀ x ∈ pairs.map Prod.fst, x ∉ m.map Prod.fst) →
      pairs.foldl insStep m = m ++ pairs := by
  induction pairs with
  | nil => intro m _ _; simp
  | cons p pairs ih =>
    intro m hnd hdisj
    have hnd' : (p.1 :: pairs.map Prod.fst).Nodup := by simpa using hnd
    obtain ⟨hhead, htail⟩ := List.nodup_cons.mp hnd'
    rw [List.foldl_cons]
    show pairs.foldl insStep (insertMap m p.1 p.2) = m ++ p :: pairs
    rw [insertMap_of_not_mem p.2 (hdisj p.1 (by simp))]
    rw [ih (m ++ [(p.1, p.2)]) htail ?_]
    · simp
    · intro x hx
      simp only [List.map_append, List.mem_append, List.map_cons, List.map_nil,
        List.mem_cons, not_or]
      refine ⟨hdisj x (by simp [hx]), ?_⟩
      have hne : x ≠ p.1 := by
        intro hc
        rw [hc] at hx
        exact hhead hx
      simpa using hne


/-! Set (`HashSet`) facts. -/

theorem mem_insertSet (s : List Txid) (k x : Txid) :
    x ∈ insertSet s k ↔ x ∈ s ∨ x = k := by
  unfold insertSet
  split
  · rename_i hmem
    constructor
    · exact Or.inl
    · rintro (hx | rfl)
      · exact hx
      · exact hmem
  · simp


theorem nodup_insertSet (s : List Txid) (k : Txid) (h : s.Nodup) :
    (insertSet s k).Nodup := by
  unfold insertSet
  split
  · exact h
  · rename_i hmem
    rw [List.nodup_append]
    exact ⟨h, List.nodup_singleton k, by simpa using hmem⟩


theorem mem_foldl_insertSet (l : List Txid) (x : Txid) :
    ∀ s, x ∈ l.foldl insertSet s ↔ x ∈ s ∨ x ∈ l := by
  induction l with
  | nil => intro s; simp
  | cons k l ih =>
    intro s
    rw [List.foldl_cons, ih, mem_insertSet]
    simp only [List.mem_cons]
    tauto


theorem nodup_foldl_insertSet (l : List Txid) :
    ∀ s, s.Nodup → (l.foldl insertSet s).Nodup := by
  induction l with
  | nil => intro s h; exact h
  | cons k l ih =>
    intro s h
    rw [List.foldl_cons]
    exact ih _ (nodup_insertSet s k h)


theorem foldl_insertSet_eq_append (l : List Txid) :
    ∀ s, l.Nodup → (∀ x ∈ l, x ∉ s) → l.foldl insertSet s = s ++ l := by
  induction l with
  | nil => intro s _ _; simp
  | cons k l ih =>
    intro s hnd hdisj
    rw [List.foldl_cons]
    have hins : insertSet s k = s ++ [k] := by
      unfold insertSet
      rw [if_neg (hdisj k (by simp))]
    rw [hins, ih (s ++ [k]) (List.nodup_cons.mp hnd).2 ?_]
    · simp
    · intro x hx
      simp only [List.mem_append, List.mem_singleton, not_or]
      refine ⟨hdisj x (by simp [hx]), ?_⟩
      intro hc
      rw [hc] at hx
      exact (List.nodup_cons.mp hnd).1 hx


/-! ## Exactness: decoding an encoding returns the encoded value

The converse direction: for well-formed values, each reader applied to
`encode value ++ rest` succeeds with exactly that value and `rest`.
This gives `load (serialize m) = m` for well-formed snapshots. -/

theorem readBytesN_exact {a : Bytes} {n : Nat} (h : a.length = n) (rest : Bytes) :
    readBytesN n (a ++ rest) = some (a, rest) := by
  unfold readBytesN
  rw [if_pos (by simp [h])]
  rw [List.take_append_eq_append_take, List.drop_append_eq_append_drop]
  simp [h]


theorem readU16_exact {v : Nat} (h : v < 2 ^ 16) (rest : Bytes) :
    readU16 (natToBytes 2 v ++ rest) = some (v, rest) := by
  simp only [readU16, bind_eq, pure_eq]
  show pbind (readBytesN 2) _ _ = _
  rw [pbind_eq_some.mpr ⟨natToBytes 2 v, rest, readBytesN_exact (natToBytes_length 2 v) rest, ?_⟩]
  rw [ppure_eq_some.mpr ⟨?_, rfl⟩]
  rw [bytesToNat_natToBytes]
  omega


theorem readU32_exact {v : Nat} (h : v < 2 ^ 32) (rest : Bytes) :
    readU32 (natToBytes 4 v ++ rest) = some (v, rest) := by
  simp only [readU32, bind_eq, pure_eq]
  show pbind (readBytesN 4) _ _ = _
  rw [pbind_eq_some.mpr ⟨natToBytes 4 v, rest, readBytesN_exact (natToBytes_length 4 v) rest, ?_⟩]
  rw [ppure_eq_some.mpr ⟨?_, rfl⟩]
  rw [bytesToNat_natToBytes]
  omega


theorem readU64_exact {v : Nat} (h : v < 2 ^ 64) (rest : Bytes) :
    readU64 (natToBytes 8 v ++ rest) = some (v, rest) := by
  simp only [readU64, bind_eq, pure_eq]
  show pbind (readBytesN 8) _ _ = _
  rw [pbind_eq_some.mpr ⟨natToBytes 8 v, rest, readBytesN_exact (natToBytes_length 8 v) rest, ?_⟩]
  rw [ppure_eq_some.mpr ⟨?_, rfl⟩]
  rw [bytesToNat_natToBytes]
  omega


theorem readI64_exact {x : Int} (h : I64WF x) (rest : Bytes) :
    readI64 (emitI64 x ++ rest) = some (x, rest) := by
  obtain ⟨hlo, hhi⟩ := h
  have hN : ((2 ^ 64 : Nat) : Int) = 2 ^ 64 := by norm_num
  have hmod : (x % (2 ^ 64 : Nat)).toNat < 2 ^ 64 := by
    rw [hN]
    omega
  simp only [readI64, bind_eq, pure_eq, emitI64]
  show pbind readU64 _ _ = _
  rw [pbind_eq_some.mpr ⟨(x % (2 ^ 64 : Nat)).toNat, rest, readU64_exact hmod rest, ?_⟩]
  rw [ppure_eq_some.mpr ⟨?_, rfl⟩]
  unfold toI64
  rw [hN] at hmod ⊢
  split <;> omega


theorem readByte_exact (b : Byte) (rest : Bytes) :
    readByte (b :: rest) = some (b, rest) := rfl


theorem readVarInt_exact {v : Nat} (h : v < 2 ^ 64) (rest : Bytes) :
    readVarInt (encodeVarInt v ++ rest) = some (v, rest) := by
  simp only [readVarInt, bind_eq, pure_eq]
  unfold encodeVarInt
  by_cases h1 : v ≤ 0xfc
  · rw [if_pos h1, List.singleton_append]
    refine pbind_eq_some.mpr ⟨_, _, readByte_exact _ rest, ?_⟩
    have hval : (⟨v % 256, Nat.mod_lt _ (by omega)⟩ : Byte).val = v := by
      show v % 256 = v
      omega
    rw [hval, if_pos h1]
    exact ppure_eq_some.mpr ⟨rfl, rfl⟩
  · by_cases h2 : v ≤ 0xffff
    · rw [if_neg h1, if_pos h2, List.cons_append]
      refine pbind_eq_some.mpr ⟨_, _, readByte_exact _ _, ?_⟩
      rw [if_neg (by decide), if_pos (by decide)]
      refine pbind_eq_some.mpr ⟨v, rest, readU16_exact (by omega) rest, ?_⟩
      rw [if_neg (by omega)]
      exact ppure_eq_some.mpr ⟨rfl, rfl⟩
    · by_cases h3 : v ≤ 0xffffffff
      · rw [if_neg h1, if_neg h2, if_pos h3, List.cons_append]
        refine pbind_eq_some.mpr ⟨_, _, readByte_exact _ _, ?_⟩
        rw [if_neg (by decide), if_neg (by decide), if_pos (by decide)]
        refine pbind_eq_some.mpr ⟨v, rest, readU32_exact (by omega) rest, ?_⟩
        rw [if_neg (by omega)]
        exact ppure_eq_some.mpr ⟨rfl, rfl⟩
      · rw [if_neg h1, if_neg h2, if_neg h3, List.cons_append]
        refine pbind_eq_some.mpr ⟨_, _, readByte_exact _ _, ?_⟩
        rw [if_neg (by decide), if_neg (by decide), if_neg (by decide)]
        refine pbind_eq_some.mpr ⟨v, rest, readU64_exact h rest, ?_⟩
        rw [if_neg (by omega)]
        exact ppure_eq_some.mpr ⟨rfl, rfl⟩


theorem readBlob_exact {s : Bytes} (h : s.length < 2 ^ 64) (rest : Bytes) :
    readBlob (encodeBlob s ++ rest) = some (s, rest) := by
  simp only [readBlob, bind_eq, pure_eq, encodeBlob]
  show pbind readVarInt _ _ = _
  rw [List.append_assoc]
  rw [pbind_eq_some.mpr ⟨s.length, s ++ rest, readVarInt_exact h _, ?_⟩]
  exact readBytesN_exact rfl rest


theorem readTxid_exact {t : Txid} (h : t.length = 32) (rest : Bytes) :
    readTxid (t ++ rest) = some (t, rest) := readBytesN_exact h rest


theorem pcount_exact {α : Type} {p : P α} {e : α → Bytes} {l : List α}
    (hall : ∀ a ∈ l, ∀ rest, p (e a ++ rest) = some (a, rest)) (rest : Bytes) :
    pcount p l.length (List.flatten (l.map e) ++ rest) = some (l, rest) := by
  induction l with
  | nil => simp [pcount, ppure]
  | cons a l ih =>
    simp only [List.map_cons, List.flatten_cons, List.length_cons, pcount,
      bind_eq, pure_eq, List.append_assoc]
    rw [pbind_eq_some.mpr ⟨a, List.flatten (l.map e) ++ rest,
      hall a (by simp) _, ?_⟩]
    rw [pbind_eq_some.mpr ⟨l, rest, ih (fun x hx => hall x (by simp [hx])), ?_⟩]
    exact ppure_eq_some.mpr ⟨rfl, rfl⟩


theorem readVec_exact {α : Type} {p : P α} {e : α → Bytes} {l : List α}
    (hlen : l.length < 2 ^ 64)
    (hall : ∀ a ∈ l, ∀ rest, p (e a ++ rest) = some (a, rest)) (rest : Bytes) :
    readVec p (encodeVec e l ++ rest) = some (l, rest) := by
  simp only [readVec, bind_eq, pure_eq, encodeVec]
  show pbind readVarInt _ _ = _
  rw [List.append_assoc]
  rw [pbind_eq_some.mpr ⟨l.length, List.flatten (l.map e) ++ rest,
    readVarInt_exact hlen _, ?_⟩]
  exact pcount_exact hall rest


theorem readWitness_exact {w : List Bytes} (hlen : w.length < 2 ^ 64)
    (hall : ∀ b ∈ w, b.length < 2 ^ 64) (rest : Bytes) :
    readWitness (encodeWitness w ++ rest) = some (w, rest) := by
  simp only [readWitness, bind_eq, pure_eq, encodeWitness]
  show pbind readVarInt _ _ = _
  rw [List.append_assoc]
  rw [pbind_eq_some.mpr ⟨w.length, List.flatten (w.map encodeBlob) ++ rest,
    readVarInt_exact hlen _, ?_⟩]
  exact pcount_exact (fun b hb r => readBlob_exact (hall b hb) r) rest


theorem encodeTxIn_stripWitness (i : TxIn) :
    encodeTxIn (stripWitness i) = encodeTxIn i := rfl


theorem stripWitness_of_empty {i : TxIn} (h : i.witness = []) :
    stripWitness i = i := by
  cases i
  simp_all [stripWitness]


theorem setWitnesses_strip (input : List TxIn) :
    setWitnesses (input.map stripWitness) (input.map TxIn.witness) = input := by
  induction input with
  | nil => rfl
  | cons i is ih =>
    simp only [List.map_cons, setWitnesses, ih]
    congr 1


theorem encodeVec_map_strip (l : List TxIn) :
    encodeVec encodeTxIn (l.map stripWitness) = encodeVec encodeTxIn l := by
  unfold encodeVec
  rw [List.length_map, List.map_map]
  rfl


theorem stripWitness_wf {i : TxIn} (h : TxInWF i) : TxInWF (stripWitness i) := by
  obtain ⟨h1, h2, h3, h4, -, -⟩ := h
  exact ⟨h1, h2, h3, h4, by simp [stripWitness], by simp [stripWitness]⟩


theorem readTxIn_exact {i : TxIn} (h : TxInWF i) (rest : Bytes) :
    readTxIn (encodeTxIn i ++ rest) = some (stripWitness i, rest) := by
  obtain ⟨h1, h2, h3, h4, -, -⟩ := h
  simp only [readTxIn, bind_eq, pure_eq, encodeTxIn, List.append_assoc]
  refine pbind_eq_some.mpr ⟨_, _, readTxid_exact h1 _, ?_⟩
  refine pbind_eq_some.mpr ⟨_, _, readU32_exact h2 _, ?_⟩
  refine pbind_eq_some.mpr ⟨_, _, readBlob_exact h3 _, ?_⟩
  refine pbind_eq_some.mpr ⟨_, _, readU32_exact h4 _, ?_⟩
  refine ppure_eq_some.mpr ⟨?_, rfl⟩
  cases i
  rfl


theorem readTxOut_exact {o : TxOut} (h : TxOutWF o) (rest : Bytes) :
    readTxOut (encodeTxOut o ++ rest) = some (o, rest) := by
  obtain ⟨h1, h2⟩ := h
  simp only [readTxOut, bind_eq, pure_eq, encodeTxOut, List.append_assoc]
  refine pbind_eq_some.mpr ⟨_, _, readU64_exact h1 _, ?_⟩
  refine pbind_eq_some.mpr ⟨_, _, readBlob_exact h2 _, ?_⟩
  refine ppure_eq_some.mpr ⟨?_, rfl⟩
  cases o
  rfl


theorem readTransaction_exact {t : Transaction} (h : TxWF t) (rest : Bytes) :
    readTransaction (encodeTransaction t ++ rest) = some (t, rest) := by
  obtain ⟨hv, hlt, hil, hol, hiwf, howf⟩ := h
  simp only [readTransaction, bind_eq, pure_eq]
  cases hsw : usesSegwit t with
  | false =>
    have hor := Bool.or_eq_false_iff.mp (by rw [← hsw]; rfl)
    have hany : t.input.any (fun i => !i.witness.isEmpty) = false := hor.1
    have hne : t.input.isEmpty = false := hor.2
    have hwit : ∀ i ∈ t.input, i.witness = [] := by
      intro i hi
      have := List.any_eq_false.mp hany i hi
      simp only [Bool.not_eq_true'] at this
      exact List.isEmpty_iff.mp (by simpa using this)
    unfold encodeTransaction
    rw [hsw]
    simp only [if_false, Bool.false_eq_true, List.nil_append, List.append_nil,
      List.append_assoc]
    refine pbind_eq_some.mpr ⟨_, _, readU32_exact hv _, ?_⟩
    refine pbind_eq_some.mpr ⟨t.input, _,
      readVec_exact hil (fun i hi r => by
        rw [← stripWitness_of_empty (hwit i hi)]
        rw [← encodeTxIn_stripWitness]
        exact readTxIn_exact (stripWitness_wf (hiwf i hi)) r) _, ?_⟩
    rw [hne]
    simp only [Bool.false_eq_true, if_false]
    refine pbind_eq_some.mpr ⟨t.output, _, readVec_exact hol (fun o ho r => readTxOut_exact (howf o ho) r) _, ?_⟩
    refine pbind_eq_some.mpr ⟨_, _, readU32_exact hlt _, ?_⟩
    exact ppure_eq_some.mpr ⟨rfl, rfl⟩
  | true =>
    have hwitwf : ∀ w ∈ t.input.map TxIn.witness, w.length < 2 ^ 64 ∧
        ∀ b ∈ w, b.length < 2 ^ 64 := by
      intro w hw
      obtain ⟨i, hi, rfl⟩ := List.mem_map.mp hw
      obtain ⟨-, -, -, -, h5, h6⟩ := hiwf i hi
      exact ⟨h5, h6⟩
    unfold encodeTransaction
    rw [hsw]
    simp only [if_true, List.append_assoc]
    refine pbind_eq_some.mpr ⟨_, _, readU32_exact hv _, ?_⟩
    have h01 : (([⟨0, by omega⟩, ⟨1, by omega⟩] : Bytes) ++
        (encodeVec encodeTxIn t.input ++ (encodeVec encodeTxOut t.output ++
          (List.flatten (t.input.map fun i => encodeWitness i.witness) ++
            (natToBytes 4 t.lockTime ++ rest))))) =
        encodeVec encodeTxIn ([] : List TxIn) ++
          ((⟨1, by omega⟩ : Byte) :: (encodeVec encodeTxIn t.input ++
            (encodeVec encodeTxOut t.output ++
              (List.flatten (t.input.map fun i => encodeWitness i.witness) ++
                (natToBytes 4 t.lockTime ++ rest))))) := rfl
    rw [h01]
    refine pbind_eq_some.mpr ⟨[], _,
      readVec_exact (by norm_num) (fun a ha r => absurd ha (List.not_mem_nil a)) _, ?_⟩
    rw [if_pos (by rfl)]
    refine pbind_eq_some.mpr ⟨_, _, readByte_exact _ _, ?_⟩
    rw [if_pos (by rfl)]
    rw [← encodeVec_map_strip t.input]
    refine pbind_eq_some.mpr ⟨t.input.map stripWitness, _,
      readVec_exact (by rw [List.length_map]; exact hil) (fun a ha r => by
        obtain ⟨i, hi, rfl⟩ := List.mem_map.mp ha
        rw [← encodeTxIn_stripWitness]
        have : stripWitness (stripWitness i) = stripWitness i := rfl
        rw [← this]
        exact readTxIn_exact (stripWitness_wf (stripWitness_wf (hiwf i hi))) r) _, ?_⟩
    refine pbind_eq_some.mpr ⟨t.output, _,
      readVec_exact hol (fun o ho r => readTxOut_exact (howf o ho) r) _, ?_⟩
    have hlen2 : (t.input.map stripWitness).length = (t.input.map TxIn.witness).length := by
      simp
    have hflat : List.flatten (t.input.map fun i => encodeWitness i.witness) =
        List.flatten ((t.input.map TxIn.witness).map encodeWitness) := by
      rw [List.map_map]
      rfl
    rw [hlen2, hflat]
    refine pbind_eq_some.mpr ⟨t.input.map TxIn.witness, _,
      pcount_exact (fun w hw r => readWitness_exact (hwitwf w hw).1 (hwitwf w hw).2 r) _, ?_⟩
    rw [setWitnesses_strip]
    rw [if_neg ?_]
    · refine pbind_eq_some.mpr ⟨_, _, readU32_exact hlt _, ?_⟩
      exact ppure_eq_some.mpr ⟨rfl, rfl⟩
    · intro ⟨hcne, hcall⟩
      unfold usesSegwit at hsw
      rcases (by simpa using hsw :
          t.input.any (fun i => !i.witness.isEmpty) = true ∨
            t.input.isEmpty = true) with hany | hemp
      · obtain ⟨x, hx, hxw⟩ := List.any_eq_true.mp hany
        have := List.all_eq_true.mp hcall x hx
        simp only [Bool.not_eq_true'] at hxw
        rw [hxw] at this
        exact absurd this (by simp)
      · exact hcne hemp


theorem readTxn_exact {t : Txn} (h : TxnWF t) (rest : Bytes) :
    readTxn (encodeTxn t ++ rest) = some (t, rest) := by
  obtain ⟨h1, h2, h3⟩ := h
  simp only [readTxn, bind_eq, pure_eq, encodeTxn, List.append_assoc]
  refine pbind_eq_some.mpr ⟨_, _, readTransaction_exact h1 _, ?_⟩
  refine pbind_eq_some.mpr ⟨_, _, readI64_exact h2 _, ?_⟩
  refine pbind_eq_some.mpr ⟨_, _, readI64_exact h3 _, ?_⟩
  refine ppure_eq_some.mpr ⟨?_, rfl⟩
  cases t
  rfl


theorem readDeltaPair_exact {p : Txid × Int} (h1 : p.1.length = 32)
    (h2 : I64WF p.2) (rest : Bytes) :
    readDeltaPair (encodeDeltaPair p ++ rest) = some (p, rest) := by
  simp only [readDeltaPair, bind_eq, pure_eq, encodeDeltaPair, List.append_assoc]
  refine pbind_eq_some.mpr ⟨_, _, readTxid_exact h1 _, ?_⟩
  refine pbind_eq_some.mpr ⟨_, _, readI64_exact h2 _, ?_⟩
  exact ppure_eq_some.mpr ⟨rfl, rfl⟩


/-! ## The decode loops as raw streams followed by collection inserts -/

theorem readDeltaLoop_eq (n : Nat) :
    ∀ m bs, readDeltaLoop n m bs =
      (pcount readDeltaPair n bs).map fun x => (x.1.foldl insStep m, x.2) := by
  induction n with
  | zero =>
    intro m bs
    simp [readDeltaLoop, pcount, ppure]
  | succ n ih =>
    intro m bs
    show pbind readDeltaPair _ bs = _
    simp only [pcount, bind_eq, pure_eq]
    cases hp : readDeltaPair bs with
    | none => simp [pbind, hp]
    | some x =>
      obtain ⟨p, mid⟩ := x
      simp only [pbind, hp]
      rw [ih]
      cases hc : pcount readDeltaPair n mid with
      | none => rfl
      | some y =>
        obtain ⟨as, r⟩ := y
        simp [ppure, insStep]


theorem readUnbroadcastLoop_eq (n : Nat) :
    ∀ s bs, readUnbroadcastLoop n s bs =
      (pcount readTxid n bs).map fun x => (x.1.foldl insertSet s, x.2) := by
  induction n with
  | zero =>
    intro s bs
    simp [readUnbroadcastLoop, pcount, ppure]
  | succ n ih =>
    intro s bs
    show pbind readTxid _ bs = _
    simp only [pcount, bind_eq, pure_eq]
    cases hp : readTxid bs with
    | none => simp [pbind, hp]
    | some x =>
      obtain ⟨t, mid⟩ := x
      simp only [pbind, hp]
      rw [ih]
      cases hc : pcount readTxid n mid with
      | none => rfl
      | some y =>
        obtain ⟨as, r⟩ := y
        simp [ppure]


theorem readV1Body_eq (bs : Bytes) :
    readV1Body bs = (readV1Raw bs).map fun x =>
      ((x.1.1, x.1.2.1.foldl insStep [], x.1.2.2.foldl insertSet []), x.2) := by
  simp only [readV1Body, readV1Raw, bind_eq, pure_eq]
  unfold pbind
  cases h1 : readU64 bs with
  | none => rfl
  | some x1 =>
    obtain ⟨n, m1⟩ := x1
    dsimp only
    cases h2 : pcount readTxn n m1 with
    | none => rfl
    | some x2 =>
      obtain ⟨txs, m2⟩ := x2
      dsimp only
      cases h3 : readVarInt m2 with
      | none => rfl
      | some x3 =>
        obtain ⟨d, m3⟩ := x3
        dsimp only
        rw [readDeltaLoop_eq]
        cases h4 : pcount readDeltaPair d m3 with
        | none => rfl
        | some x4 =>
          obtain ⟨pairs, m4⟩ := x4
          simp only [Option.map_some']
          cases h5 : readVarInt m4 with
          | none => rfl
          | some x5 =>
            obtain ⟨u, m5⟩ := x5
            dsimp only
            rw [readUnbroadcastLoop_eq]
            cases h6 : pcount readTxid u m5 with
            | none => rfl
            | some x6 =>
              obtain ⟨ubs, m6⟩ := x6
              simp only [Option.map_some']
              rfl


/-- Destructuring of a successful `loadBytes` into the version read, the
raw streams and the collection folds. -/
theorem loadBytes_ok_elim {bs : Bytes} {m : MempoolSerde} {rest : Bytes}
    (h : loadBytes bs = .ok m rest) :
    ∃ r1 txs pairs ubs,
      readU64 bs = some (MEMPOOL_DUMP_VERSION_NO_XOR_KEY, r1) ∧
      readV1Raw r1 = some ((txs, pairs, ubs), rest) ∧
      m = ⟨MEMPOOL_DUMP_VERSION_NO_XOR_KEY, txs, pairs.foldl insStep [],
        ubs.foldl insertSet []⟩ := by
  unfold loadBytes at h
  cases h1 : readU64 bs with
  | none => rw [h1] at h; exact absurd h (by simp)
  | some x1 =>
    obtain ⟨version, r1⟩ := x1
    rw [h1] at h
    dsimp only at h
    split at h
    · rename_i hv
      subst hv
      rw [readV1Body_eq] at h
      cases h2 : readV1Raw r1 with
      | none => rw [h2] at h; exact absurd h (by simp)
      | some x2 =>
        obtain ⟨⟨txs, pairs, ubs⟩, rest'⟩ := x2
        rw [h2] at h
        simp only [Option.map_some'] at h
        injection h with hm hr
        subst hr
        exact ⟨r1, txs, pairs, ubs, rfl, h2, hm.symm⟩
    · exact absurd h (by simp)


theorem readV1Raw_spec {bs : Bytes} {txs : List Txn} {pairs : List (Txid × Int)}
    {ubs : List Txid} {rest : Bytes}
    (h : readV1Raw bs = some ((txs, pairs, ubs), rest)) :
    bs = encodeV1Body txs pairs ubs ++ rest ∧
      txs.length < 2 ^ 64 ∧ (∀ t ∈ txs, TxnWF t) ∧
      pairs.length < 2 ^ 64 ∧ (∀ p ∈ pairs, p.1.length = 32 ∧ I64WF p.2) ∧
      ubs.length < 2 ^ 64 ∧ ∀ t ∈ ubs, t.length = 32 := by
  simp only [readV1Raw, bind_eq, pure_eq] at h
  obtain ⟨n, m1, h1, h⟩ := pbind_eq_some.mp h
  obtain ⟨txs', m2, h2, h⟩ := pbind_eq_some.mp h
  obtain ⟨d, m3, h3, h⟩ := pbind_eq_some.mp h
  obtain ⟨pairs', m4, h4, h⟩ := pbind_eq_some.mp h
  obtain ⟨u, m5, h5, h⟩ := pbind_eq_some.mp h
  obtain ⟨ubs', m6, h6, h⟩ := pbind_eq_some.mp h
  obtain ⟨hval, hrest⟩ := ppure_eq_some.mp h
  injection hval with he1 h23
  injection h23 with he2 he3
  subst hrest
  obtain ⟨hb1, hn⟩ := readU64_spec h1
  obtain ⟨hb2, hlen2, hq2⟩ := pcount_spec (fun _ _ _ hh => readTxn_spec hh) h2
  obtain ⟨hb3, hd⟩ := readVarInt_spec h3
  obtain ⟨hb4, hlen4, hq4⟩ := pcount_spec (fun _ _ _ hh => readDeltaPair_spec hh) h4
  obtain ⟨hb5, hu⟩ := readVarInt_spec h5
  obtain ⟨hb6, hlen6, hq6⟩ := pcount_spec
    (fun _ _ _ hh => (readTxid_spec hh : _ ∧ _)) h6
  subst he1 he2 he3
  refine ⟨?_, by omega, hq2, by omega, hq4, by omega, hq6⟩
  rw [hb1, hb2, hb3, hb4, hb5, hb6]
  unfold encodeV1Body emitU64
  rw [hlen2, hlen4, hlen6]
  have hid : List.map (fun t => t) ubs = ubs := by simp
  rw [hid]
  simp [List.append_assoc]


theorem readV1Raw_exact {txs : List Txn} {pairs : List (Txid × Int)}
    {ubs : List Txid}
    (h2 : txs.length < 2 ^ 64) (hq2 : ∀ t ∈ txs, TxnWF t)
    (h4 : pairs.length < 2 ^ 64) (hq4 : ∀ p ∈ pairs, p.1.length = 32 ∧ I64WF p.2)
    (h6 : ubs.length < 2 ^ 64) (hq6 : ∀ t ∈ ubs, t.length = 32) (rest : Bytes) :
    readV1Raw (encodeV1Body txs pairs ubs ++ rest) =
      some ((txs, pairs, ubs), rest) := by
  simp only [readV1Raw, bind_eq, pure_eq, encodeV1Body, emitU64,
    List.append_assoc]
  refine pbind_eq_some.mpr ⟨txs.length, _, readU64_exact h2 _, ?_⟩
  refine pbind_eq_some.mpr ⟨txs, _,
    pcount_exact (fun t ht r => readTxn_exact (hq2 t ht) r) _, ?_⟩
  refine pbind_eq_some.mpr ⟨pairs.length, _, readVarInt_exact h4 _, ?_⟩
  refine pbind_eq_some.mpr ⟨pairs, _,
    pcount_exact (fun p hp r => readDeltaPair_exact (hq4 p hp).1 (hq4 p hp).2 r) _, ?_⟩
  refine pbind_eq_some.mpr ⟨ubs.length, _, readVarInt_exact h6 _, ?_⟩
  have hid : List.flatten (ubs.map fun t => t) = List.flatten ubs := by
    simp
  rw [← hid]
  refine pbind_eq_some.mpr ⟨ubs, _,
    pcount_exact (fun t ht r => readTxid_exact (hq6 t ht) r) _, ?_⟩
  exact ppure_eq_some.mpr ⟨rfl, rfl⟩


/-! Bounds carried through the two collection folds. -/

theorem mem_insertMap_sub {m : List (Txid × Int)} {k : Txid} {v : Int} {q : Txid × Int}
    (h : q ∈ insertMap m k v) : q ∈ m ∨ q = (k, v) := by
  unfold insertMap at h
  split at h
  · rcases List.mem_map.mp h with ⟨p, hp, hpq⟩
    split at hpq
    · right; exact hpq.symm
    · left; rw [← hpq]; exact hp
  · rcases List.mem_append.mp h with hq | hq
    · left; exact hq
    · right; simpa using hq


theorem mem_foldl_insertMap_sub {pairs : List (Txid × Int)} :
    ∀ {m : List (Txid × Int)} {q : Txid × Int}, q ∈ pairs.foldl insStep m →
      q ∈ m ∨ q ∈ pairs := by
  induction pairs with
  | nil => intro m q h; exact Or.inl h
  | cons p pairs ih =>
    intro m q h
    rw [List.foldl_cons] at h
    rcases ih h with hq | hq
    · rcases mem_insertMap_sub hq with hq2 | hq2
      · exact Or.inl hq2
      · right
        rw [hq2]
        simp
    · right
      simp [hq]


theorem insertMap_length (m : List (Txid × Int)) (k : Txid) (v : Int) :
    (insertMap m k v).length ≤ m.length + 1 := by
  unfold insertMap
  split <;> simp


theorem foldl_insertMap_length (pairs : List (Txid × Int)) :
    ∀ m : List (Txid × Int),
      (pairs.foldl insStep m).length ≤ m.length + pairs.length := by
  induction pairs with
  | nil => intro m; simp
  | cons p pairs ih =>
    intro m
    rw [List.foldl_cons]
    have h1 := ih (insStep m p)
    have h2 : (insStep m p).length ≤ m.length + 1 := insertMap_length m p.1 p.2
    simp only [List.length_cons]
    omega


theorem insertSet_length (s : List Txid) (k : Txid) :
    (insertSet s k).length ≤ s.length + 1 := by
  unfold insertSet
  split <;> simp


theorem foldl_insertSet_length (l : List Txid) :
    ∀ s : List Txid, (l.foldl insertSet s).length ≤ s.length + l.length := by
  induction l with
  | nil => intro s; simp
  | cons k l ih =>
    intro s
    rw [List.foldl_cons]
    have h1 := ih (insertSet s k)
    have h2 := insertSet_length s k
    simp only [List.length_cons]
    omega


/-- Every snapshot returned by `loadBytes` is well-formed. -/
theorem loadBytes_wf {bs : Bytes} {m : MempoolSerde} {rest : Bytes}
    (h : loadBytes bs = .ok m rest) : SnapshotWF m := by
  obtain ⟨r1, txs, pairs, ubs, h1, h2, hm⟩ := loadBytes_ok_elim h
  obtain ⟨-, hlen2, hq2, hlen4, hq4, hlen6, hq6⟩ := readV1Raw_spec h2
  subst hm
  refine ⟨rfl, hlen2, hq2, ?_, ?_, ?_, ?_, ?_, ?_⟩
  · show (pairs.foldl insStep []).length < 2 ^ 64
    have := foldl_insertMap_length pairs []
    simp only [List.length_nil] at this
    omega
  · intro p hp
    rcases mem_foldl_insertMap_sub hp with hp2 | hp2
    · simp at hp2
    · exact hq4 p hp2
  · exact keysNodup_foldl pairs [] (by simp)
  · show (ubs.foldl insertSet []).length < 2 ^ 64
    have := foldl_insertSet_length ubs []
    simp only [List.length_nil] at this
    omega
  · intro t ht
    rcases (mem_foldl_insertSet ubs t []).mp ht with ht2 | ht2
    · simp at ht2
    · exact hq6 t ht2
  · exact nodup_foldl_insertSet ubs [] List.nodup_nil


theorem to_bytes_iter_eq (v : Nat) (txs : List Txn)
    (pairs : List (Txid × Int)) (ubs : List Txid) :
    to_bytes_iter v txs pairs ubs = emitU64 v ++ encodeV1Body txs pairs ubs := by
  unfold to_bytes_iter encodeV1Body
  simp [List.append_assoc]


theorem to_bytes_eq (m : MempoolSerde) :
    to_bytes m = emitU64 m.version ++
      encodeV1Body m.txs m.map_deltas m.unbroadcast_txids := by
  unfold to_bytes
  rw [to_bytes_iter_eq]


/-- Re-serializing a well-formed snapshot and decoding it again returns
the same snapshot, with the whole buffer consumed. -/
theorem loadBytes_reload {m : MempoolSerde} (h : SnapshotWF m) :
    loadBytes (to_bytes m) = .ok m [] := by
  obtain ⟨hv, hlen2, hq2, hlen4, hq4, hnd4, hlen6, hq6, hnd6⟩ := h
  have hb : to_bytes m = natToBytes 8 1 ++
      (encodeV1Body m.txs m.map_deltas m.unbroadcast_txids ++ []) := by
    rw [to_bytes_eq, hv]
    unfold emitU64 MEMPOOL_DUMP_VERSION_NO_XOR_KEY
    simp
  unfold loadBytes
  rw [hb]
  rw [readU64_exact (by norm_num) _]
  dsimp only
  rw [if_pos (show (1 : Nat) = MEMPOOL_DUMP_VERSION_NO_XOR_KEY from rfl)]
  rw [readV1Body_eq]
  rw [readV1Raw_exact hlen2 hq2 hlen4 hq4 hlen6 hq6 []]
  simp only [Option.map_some']
  have hfold1 : m.map_deltas.foldl insStep [] = m.map_deltas := by
    have := foldl_insertMap_eq_append m.map_deltas [] hnd4 (by simp)
    simpa using this
  have hfold2 : m.unbroadcast_txids.foldl insertSet [] = m.unbroadcast_txids := by
    have := foldl_insertSet_eq_append m.unbroadcast_txids [] hnd6 (by simp)
    simpa using this
  rw [hfold1, hfold2]
  rw [show (1 : Nat) = m.version from hv.symm]


/-- A file that decodes with nothing left over still decodes, to the
same snapshot, after arbitrary bytes are appended; the extra bytes are
simply returned unread. -/
theorem loadBytes_extend {bs : Bytes} {m : MempoolSerde}
    (h : loadBytes bs = .ok m []) (extra : Bytes) :
    loadBytes (bs ++ extra) = .ok m extra := by
  obtain ⟨r1, txs, pairs, ubs, h1, h2, hm⟩ := loadBytes_ok_elim h
  have hbody : readV1Body r1 = some ((txs, pairs.foldl insStep [],
      ubs.foldl insertSet []), []) := by
    rw [readV1Body_eq, h2]
    rfl
  obtain ⟨c1, hc1, hext1⟩ := pgood_readU64 bs _ r1 h1
  obtain ⟨c2, hc2, hext2⟩ := pgood_readV1Body r1 _ [] hbody
  rw [List.append_nil] at hc2
  subst hc2
  unfold loadBytes
  have hsplit : bs ++ extra = c1 ++ (r1 ++ extra) := by
    rw [hc1, List.append_assoc]
  rw [hsplit, hext1 (r1 ++ extra)]
  dsimp only
  rw [if_pos rfl]
  rw [hext2 extra]
  rw [hm]


theorem readU64_none_of_short {bs : Bytes} (h : bs.length < 8) :
    readU64 bs = none := by
  simp only [readU64, bind_eq, pure_eq]
  show pbind (readBytesN 8) _ _ = none
  unfold pbind readBytesN
  rw [if_neg (by omega)]


/-- Truncating a loadable file strictly inside its consumed region makes
the load fail with a decode error. -/
theorem loadBytes_trunc {bs : Bytes} {m : MempoolSerde} {rest : Bytes}
    (h : loadBytes bs = .ok m rest) {k : Nat}
    (hk : k < bs.length - rest.length) :
    loadBytes (bs.take k) = .err := by
  obtain ⟨r1, txs, pairs, ubs, h1, h2, hm⟩ := loadBytes_ok_elim h
  have hbody : readV1Body r1 = some ((txs, pairs.foldl insStep [],
      ubs.foldl insertSet []), rest) := by
    rw [readV1Body_eq, h2]
    rfl
  obtain ⟨hb1, -⟩ := readU64_spec h1
  have hlen1 : bs.length = 8 + r1.length := by
    rw [hb1, List.length_append, natToBytes_length]
  by_cases hk8 : k < 8
  · have hshort : (bs.take k).length < 8 := by
      rw [List.length_take]
      omega
    unfold loadBytes
    rw [readU64_none_of_short hshort]
  · have htake : bs.take k = natToBytes 8 MEMPOOL_DUMP_VERSION_NO_XOR_KEY ++
        r1.take (k - 8) := by
      rw [hb1, List.take_append_eq_append_take, natToBytes_length,
        List.take_of_length_le (by rw [natToBytes_length]; omega)]
    have hrlen : rest.length ≤ r1.length := by
      have hb2 := (readV1Raw_spec h2).1
      have : r1.length = (encodeV1Body txs pairs ubs).length + rest.length := by
        rw [hb2, List.length_append]
      omega
    have hnone : readV1Body (r1.take (k - 8)) = none :=
      pgood_trunc pgood_readV1Body hbody (k - 8) (by omega)
    unfold loadBytes
    rw [htake, readU64_exact (by decide) _]
    dsimp only
    rw [if_pos rfl, hnone]


theorem readTxn_consumes {bs : Bytes} {a : Txn} {rest : Bytes}
    (h : readTxn bs = some (a, rest)) : rest.length < bs.length := by
  obtain ⟨hb, -⟩ := readTxn_spec h
  have hlen : 0 < (encodeTxn a).length := by
    unfold encodeTxn encodeTransaction
    simp [natToBytes_length]
  rw [hb, List.length_append]
  omega


theorem pcount_none_of_short {α : Type} {p : P α}
    (hp : ∀ bs a rest, p bs = some (a, rest) → rest.length < bs.length) :
    ∀ (n : Nat) (bs : Bytes), bs.length < n → pcount p n bs = none := by
  intro n
  induction n with
  | zero => intro bs h; omega
  | succ n ih =>
    intro bs h
    show pbind p _ bs = none
    unfold pbind
    cases hp1 : p bs with
    | none => rfl
    | some x =>
      obtain ⟨a, mid⟩ := x
      have hlt := hp _ _ _ hp1
      show pbind (pcount p n) _ mid = none
      unfold pbind
      rw [ih mid (by omega)]


/-- A version-1 file whose entry count exceeds the remaining byte count
fails to load with a decode error. -/
theorem loadBytes_count_overflow {bs r1 r2 : Bytes} {n : Nat}
    (h1 : readU64 bs = some (MEMPOOL_DUMP_VERSION_NO_XOR_KEY, r1))
    (h2 : readU64 r1 = some (n, r2)) (hn : r2.length < n) :
    loadBytes bs = .err := by
  have hbody : readV1Body r1 = none := by
    simp only [readV1Body, bind_eq, pure_eq]
    show pbind readU64 _ r1 = none
    unfold pbind
    rw [h2]
    show pbind (pcount readTxn n) _ r2 = none
    unfold pbind
    rw [pcount_none_of_short (fun _ _ _ hh => readTxn_consumes hh) n r2 hn]
  unfold loadBytes
  rw [h1]
  dsimp only
  rw [if_pos rfl, hbody]


/-! ## The claims -/

/-- C1 counterexample: two legacy files that decode successfully but
whose re-serialization is not byte-identical to the original file: one
with a trailing junk byte (the loader never checks for exhaustion, and
the byte is not re-emitted) and one whose delta-map section repeats an
identifier (the map collapses the two pairs, so the re-emitted count and
section are shorter). -/
theorem c1_roundtrip_counterexample :
    (loadBytes fileTrailing = .ok snapMinimal (bytesOf [7]) ∧
      to_bytes snapMinimal ≠ fileTrailing) ∧
    (loadBytes fileDup = .ok snapDup [] ∧ to_bytes snapDup ≠ fileDup) := by
  constructor
  · exact ⟨by decide, by decide⟩
  · exact ⟨by decide, by decide⟩


/-- A list with at most one element has no duplicates. -/
theorem nodup_of_length_le_one {α : Type} {l : List α} (h : l.length ≤ 1) :
    l.Nodup := by
  cases l with
  | nil => exact List.nodup_nil
  | cons a t =>
    cases t with
    | nil => exact List.nodup_singleton a
    | cons b t2 => simp at h


/-- A permutation of a list with at most one element is that list. -/
theorem perm_eq_of_length_le_one {α : Type} {l1 l2 : List α}
    (h : l2.length ≤ 1) (hp : l1.Perm l2) : l1 = l2 := by
  cases l2 with
  | nil => exact hp.eq_nil
  | cons a t =>
    cases t with
    | nil => exact List.perm_singleton.mp hp
    | cons b t2 => simp at h


/-- C1 (amended): for a legacy file whose version-1 body parses with
every byte consumed and whose delta-map and unbroadcast sections each
hold at most one entry, `load` succeeds, and re-serializing the
resulting snapshot reproduces the file byte-identically under every
iteration order the backing `HashMap`/`HashSet` can present for their
contents — the conclusion quantifies over all permutations of the two
collections fed to `to_bytes_iter`, so it does not depend on the
hasher-dependent order of the real `std` collections.  (With two or
more entries in either section, the real serializer's pair order is
hasher-chosen and byte identity is not guaranteed by the program.) -/
theorem c1_roundtrip (bs r1 : Bytes) (txs : List Txn)
    (pairs : List (Txid × Int)) (ubs : List Txid)
    (h1 : readU64 bs = some (MEMPOOL_DUMP_VERSION_NO_XOR_KEY, r1))
    (h2 : readV1Raw r1 = some ((txs, pairs, ubs), []))
    (h3 : pairs.length ≤ 1) (h4 : ubs.length ≤ 1) :
    loadBytes bs = .ok ⟨MEMPOOL_DUMP_VERSION_NO_XOR_KEY, txs, pairs, ubs⟩ [] ∧
      ∀ (pairsIter : List (Txid × Int)) (ubsIter : List Txid),
        pairsIter.Perm pairs → ubsIter.Perm ubs →
        to_bytes_iter MEMPOOL_DUMP_VERSION_NO_XOR_KEY txs pairsIter ubsIter =
          bs := by
  have hnd3 : (pairs.map Prod.fst).Nodup :=
    nodup_of_length_le_one (by simpa using h3)
  have hnd4 : ubs.Nodup := nodup_of_length_le_one h4
  have hfold1 : pairs.foldl insStep [] = pairs := by
    simpa using foldl_insertMap_eq_append pairs [] hnd3 (by simp)
  have hfold2 : ubs.foldl insertSet [] = ubs := by
    simpa using foldl_insertSet_eq_append ubs [] hnd4 (by simp)
  constructor
  · unfold loadBytes
    rw [h1]
    dsimp only
    rw [if_pos rfl, readV1Body_eq, h2]
    simp only [Option.map_some']
    rw [hfold1, hfold2]
  · intro pairsIter ubsIter hp hu
    have hpe : pairsIter = pairs := perm_eq_of_length_le_one h3 hp
    have hue : ubsIter = ubs := perm_eq_of_length_le_one h4 hu
    subst hpe hue
    obtain ⟨hb1, -⟩ := readU64_spec h1
    obtain ⟨hb2, -⟩ := readV1Raw_spec h2
    rw [to_bytes_iter_eq, hb1, hb2]
    simp [emitU64]


/-- C1 witness: the specification's concrete scenario (version 1, no
entries, one delta pair `identifier → -500`, empty unbroadcast set)
decodes and round-trips byte-exactly, here instantiated at the one
admissible iteration order of its one-element delta map. -/
theorem c1_roundtrip_witness :
    loadBytes fileSpecScenario =
      .ok ⟨MEMPOOL_DUMP_VERSION_NO_XOR_KEY, [], [(txidAA, -500)], []⟩ [] ∧
    to_bytes_iter MEMPOOL_DUMP_VERSION_NO_XOR_KEY [] [(txidAA, -500)] [] =
      fileSpecScenario :=
  have h := c1_roundtrip fileSpecScenario (fileSpecScenario.drop 8) []
    [(txidAA, -500)] [] (by decide) (by rfl) (by decide) (by decide)
  ⟨h.1, h.2 [(txidAA, -500)] [] (List.Perm.refl _) (List.Perm.refl _)⟩


/-- C2 counterexample: on a file with version tag 2 the loader does not
return an error value at all — `MempoolSerde::new` hits `unimplemented!`
and panics, so the caller receives neither a Snapshot nor a
`DecodeError`. -/
theorem c2_version_counterexample :
    loadBytes fileV2 = .panic ∧ loadBytes fileV2 ≠ .err := by
  exact ⟨by decide, by decide⟩


/-- C2 (amended): on every file whose 8-byte version tag reads
successfully as anything other than the legacy constant 1, `load`
produces no Snapshot and no error return: it panics via
`unimplemented!`. -/
theorem c2_version_gate (bs r : Bytes) (v : Nat)
    (h : readU64 bs = some (v, r))
    (hv : v ≠ MEMPOOL_DUMP_VERSION_NO_XOR_KEY) :
    loadBytes bs = .panic := by
  unfold loadBytes
  rw [h]
  dsimp only
  rw [if_neg hv]


/-- C2 witness: the masked-variant tag 2 panics. -/
theorem c2_version_gate_witness : loadBytes fileV2 = .panic :=
  c2_version_gate fileV2 [] 2 (by decide) (by decide)


/-- C3: malformed input is rejected with a decode error and no snapshot:
(1) truncating a loadable file anywhere strictly inside its consumed
region makes `load` return the error outcome; (2) a version-1 file whose
entry count exceeds the number of remaining bytes returns the error
outcome. -/
theorem c3_malformed_rejection :
    (∀ (bs : Bytes) (m : MempoolSerde) (rest : Bytes) (k : Nat),
      loadBytes bs = .ok m rest → k < bs.length - rest.length →
      loadBytes (bs.take k) = .err) ∧
    (∀ (bs r1 r2 : Bytes) (n : Nat),
      readU64 bs = some (MEMPOOL_DUMP_VERSION_NO_XOR_KEY, r1) →
      readU64 r1 = some (n, r2) → r2.length < n → loadBytes bs = .err) :=
  ⟨fun _ _ _ _ h hk => loadBytes_trunc h hk,
   fun _ _ _ _ h1 h2 hn => loadBytes_count_overflow h1 h2 hn⟩


/-- C3 witness: the minimal file cut after 10 bytes fails, and a file
announcing five entries with no entry bytes fails. -/
theorem c3_malformed_rejection_witness :
    loadBytes (fileMinimal.take 10) = .err ∧ loadBytes fileBadCount = .err :=
  ⟨c3_malformed_rejection.1 fileMinimal snapMinimal [] 10 (by decide) (by decide),
   c3_malformed_rejection.2 fileBadCount (bytesOf [5, 0, 0, 0, 0, 0, 0, 0]) [] 5
     (by decide) (by decide) (by decide)⟩


/-- C4: decoding then immediately re-encoding preserves the snapshot:
re-loading the bytes produced by `to_bytes` returns the very same
snapshot with the whole buffer consumed, so the i-th entry written is
the i-th entry read, for every i. -/
theorem c4_entry_order (bs : Bytes) (m : MempoolSerde) (rest : Bytes)
    (h : loadBytes bs = .ok m rest) : loadBytes (to_bytes m) = .ok m [] :=
  loadBytes_reload (loadBytes_wf h)


/-- C4 witness at the minimal file. -/
theorem c4_entry_order_witness : loadBytes (to_bytes snapMinimal) =
    .ok snapMinimal [] :=
  c4_entry_order fileMinimal snapMinimal [] (by decide)


/-- C6: during decode, duplicate identifiers in the delta map resolve to
the delta of the last stream occurrence (`HashMap::insert` overwrites),
and the unbroadcast set keeps one element per identifier
(`HashSet::insert` is a no-op on duplicates). -/
theorem c6_duplicate_policy (bs r1 : Bytes) (txs : List Txn)
    (pairs : List (Txid × Int)) (ubs : List Txid) (rest : Bytes)
    (h1 : readU64 bs = some (MEMPOOL_DUMP_VERSION_NO_XOR_KEY, r1))
    (h2 : readV1Raw r1 = some ((txs, pairs, ubs), rest)) :
    loadBytes bs = .ok ⟨MEMPOOL_DUMP_VERSION_NO_XOR_KEY, txs,
      pairs.foldl insStep [], ubs.foldl insertSet []⟩ rest ∧
    (∀ k, lookupMap (pairs.foldl insStep []) k = lastDelta pairs k) ∧
    (∀ k, k ∈ ubs.foldl insertSet [] ↔ k ∈ ubs) ∧
    (ubs.foldl insertSet []).Nodup ∧
    ((pairs.foldl insStep []).map Prod.fst).Nodup := by
  refine ⟨?_, ?_, ?_, ?_, ?_⟩
  · unfold loadBytes
    rw [h1]
    dsimp only
    rw [if_pos rfl, readV1Body_eq, h2]
    rfl
  · intro k
    rw [lookupMap_foldl]
    cases lastDelta pairs k <;> rfl
  · intro k
    rw [mem_foldl_insertSet]
    simp
  · exact nodup_foldl_insertSet ubs [] List.nodup_nil
  · exact keysNodup_foldl pairs [] (by simp)


/-- C6 witness: a file repeating one identifier with deltas 1 then 2
loads with the single map entry carrying delta 2 (the last occurrence),
and the lookup matches the last-occurrence rule. -/
theorem c6_duplicate_policy_witness :
    loadBytes fileDup = .ok ⟨MEMPOOL_DUMP_VERSION_NO_XOR_KEY, [],
      [(txidAA, (1 : Int)), (txidAA, 2)].foldl insStep [],
      ([] : List Txid).foldl insertSet []⟩ [] ∧
    lookupMap ([(txidAA, (1 : Int)), (txidAA, 2)].foldl insStep []) txidAA =
      lastDelta [(txidAA, (1 : Int)), (txidAA, 2)] txidAA :=
  have h := c6_duplicate_policy fileDup (fileDup.drop 8) []
    [(txidAA, 1), (txidAA, 2)] [] [] (by decide) (by rfl)
  ⟨h.1, h.2.1 txidAA⟩


/-- C7: deleting the selected entry at a valid index `i` yields exactly
the original sequence with index `i` excluded (so length `N - 1` and the
relative order of the rest unchanged). -/
theorem c7_delete_selected (a : App) (i : Nat) (h : a.selected = some i)
    (hi : i < a.mempool.txs.length) :
    (delete_selected a).mempool.txs =
      a.mempool.txs.take i ++ a.mempool.txs.drop (i + 1) ∧
    (delete_selected a).mempool.txs.length = a.mempool.txs.length - 1 := by
  unfold delete_selected
  rw [h]
  dsimp only
  rw [if_pos hi]
  dsimp only
  constructor
  · exact List.eraseIdx_eq_take_drop_succ a.mempool.txs i
  · rw [List.eraseIdx_eq_take_drop_succ, List.length_append,
      List.length_take, List.length_drop]
    omega


/-- C7 witness: deleting index 0 of a two-entry state leaves the other
entry. -/
theorem c7_delete_selected_witness :
    (delete_selected appTwo).mempool.txs =
      appTwo.mempool.txs.take 0 ++ appTwo.mempool.txs.drop 1 ∧
    (delete_selected appTwo).mempool.txs.length =
      appTwo.mempool.txs.length - 1 :=
  c7_delete_selected appTwo 0 (by decide) (by decide)


/-- C8: inserting a payload whose hex and transaction decode succeed
appends exactly one entry (the new transaction, the supplied timestamp,
fee delta 0) at the end, leaving the first N entries unchanged and
selecting the new last index. -/
theorem c8_insert_appends (a : App) (hex : List Char) (now : Int)
    (bytes : Bytes) (tx : Transaction) (rest : Bytes)
    (hh : hexDecodeList (trimChars hex) = some bytes)
    (ht : readTransaction bytes = some (tx, rest)) :
    insert_tx a hex now =
      (⟨{ a.mempool with txs := a.mempool.txs ++ [⟨tx, now, 0⟩] },
        some a.mempool.txs.length⟩, .ok ()) ∧
    (insert_tx a hex now).1.mempool.txs.length = a.mempool.txs.length + 1 := by
  have hmain : insert_tx a hex now =
      (⟨{ a.mempool with txs := a.mempool.txs ++ [⟨tx, now, 0⟩] },
        some a.mempool.txs.length⟩, .ok ()) := by
    unfold insert_tx
    rw [hh]
    dsimp only
    rw [ht]
    dsimp only
    simp [List.length_append]
  refine ⟨hmain, ?_⟩
  rw [hmain]
  simp


/-- C8 witness: inserting a concrete minimal transaction hex into the
two-entry state appends it as the third entry. -/
theorem c8_insert_appends_witness :
    insert_tx appTwo txHexWitness 0 =
      (⟨{ appTwo.mempool with txs := appTwo.mempool.txs ++ [⟨txWitness, 0, 0⟩] },
        some appTwo.mempool.txs.length⟩, .ok ()) ∧
    (insert_tx appTwo txHexWitness 0).1.mempool.txs.length =
      appTwo.mempool.txs.length + 1 :=
  c8_insert_appends appTwo txHexWitness 0
    (bytesOf ([1, 0, 0, 0, 1] ++ List.replicate 32 0 ++
      [255, 255, 255, 255, 0, 255, 255, 255, 255, 0, 0, 0, 0, 0]))
    txWitness [] (by rfl) (by rfl)


/-- C9: when the supplied hex is malformed or the decoded bytes are not
a valid transaction, `insert_tx` reports an error and leaves the editor
state — entry sequence, delta map and unbroadcast set included —
exactly as it was. -/
theorem c9_insert_invalid (a : App) (hex : List Char) (now : Int)
    (msg : String) (h : (insert_tx a hex now).2 = .error msg) :
    (insert_tx a hex now).1 = a ∧
    (insert_tx a hex now).1.mempool.txs = a.mempool.txs ∧
    (insert_tx a hex now).1.mempool.map_deltas = a.mempool.map_deltas ∧
    (insert_tx a hex now).1.mempool.unbroadcast_txids =
      a.mempool.unbroadcast_txids := by
  have hmain : (insert_tx a hex now).1 = a := by
    unfold insert_tx
    cases h1 : hexDecodeList (trimChars hex) with
    | none => rfl
    | some bytes =>
      dsimp only
      cases h2 : readTransaction bytes with
      | none => rfl
      | some x =>
        exfalso
        unfold insert_tx at h
        rw [h1] at h
        dsimp only at h
        rw [h2] at h
        dsimp only at h
        exact absurd h (by simp)
  exact ⟨hmain, by rw [hmain], by rw [hmain], by rw [hmain]⟩


/-- C9 witness: the non-hex input string `zz` leaves the state
untouched. -/
theorem c9_insert_invalid_witness :
    (insert_tx appTwo ("zz".toList) 0).1 = appTwo :=
  (c9_insert_invalid appTwo ("zz".toList) 0 ("Invalid hex") (by rfl)).1


/-- C10: `load` never requires the file to be fully consumed: appending
arbitrary bytes after a fully-consumed legacy layout still loads, to the
same snapshot, with the extra bytes silently left unread (so
`to_bytes (load F)` is then a strict prefix of `F`). -/
theorem c10_trailing_ignored (bs : Bytes) (m : MempoolSerde)
    (h : loadBytes bs = .ok m []) (extra : Bytes) :
    loadBytes (bs ++ extra) = .ok m extra :=
  loadBytes_extend h extra


/-- C10 witness: the minimal file plus one junk byte loads and returns
the junk byte as the unread rest. -/
theorem c10_trailing_ignored_witness :
    loadBytes (fileMinimal ++ bytesOf [7]) = .ok snapMinimal (bytesOf [7]) :=
  c10_trailing_ignored fileMinimal snapMinimal (by decide) (bytesOf [7])


end Windfish
